import Mathlib

/-!
# Cybernetic Design Network — verification of the graph core

Shallow embedding of the layout / traversal / feedback core of the
Cybernetic Design Network repository, together with proofs and refutations
of the specification's claims about it.

Conventions of the embedding:
* JavaScript strings are `String`, JS arrays are `List`.
* JS `Map` objects keyed by node id are embedded either as total functions
  `String → Option α` (when only `get`/`set` are used) or as association
  lists `List (String × α)` (when the code also iterates over the entries
  in insertion order).
* JS numbers are embedded as exact rationals `ℚ`; the transcendental
  library functions (`Math.sqrt`, `Math.cos`, `Math.sin`) are abstract
  function parameters, since the claims under study do not depend on
  their values.
* `Math.random()` is an explicit stream of values consumed in call order.
* The only genuinely partial loops of the source (the unbounded `while`
  loops) are embedded with an explicit fuel parameter and an `Option`
  result; a separate sufficiency lemma computes enough fuel whenever the
  source loop terminates.
-/

/-- `RawLink` from the source: a directed edge `source → target`. -/
structure RawLink where
  source : String
  target : String
deriving DecidableEq, Repr

/-- `NodeLayer` from the source: one BFS/adaptive layer. -/
structure NodeLayer where
  level : Nat
  nodes : List String
deriving DecidableEq, Repr

/-- `NodeExploration` from the source: per-node feedback counters. -/
structure NodeExploration where
  visits : Nat
  insightful : Nat
  neutral : Nat
  familiar : Nat
deriving DecidableEq, Repr

/-- The exploration map `Map<string, NodeExploration>`: `get` returns
`undefined` (here `none`) for an unknown id. -/
def ExplMap : Type := String → Option NodeExploration

/-- `links.filter(l => l.source === nodeId).map(l => l.target)` — the
direct successors of a node in edge-list order. -/
def successors (links : List RawLink) (nodeId : String) : List String :=
  (links.filter (fun l => l.source = nodeId)).map (fun l => l.target)

/-- One directed step along a link list. -/
def linkRel (links : List RawLink) (a b : String) : Prop :=
  ∃ l ∈ links, l.source = a ∧ l.target = b

/-- Graph-theoretic reachability along directed links (reflexive-transitive
closure of single steps). -/
def Reach (links : List RawLink) (a b : String) : Prop :=
  Relation.ReflTransGen (linkRel links) a b

/-- The normal-mode BFS loop of `getAdaptiveHierarchicalLayers`
(part_001 lines 116–134).  State: `visited` set, `currentLevel` work list,
current `level`.  Each iteration filters `currentLevel` against `visited`
(the filter runs before any of the survivors are marked visited, exactly
as in the source), emits the survivors as one layer, and expands their
successors.  The loop is embedded with fuel; `none` means the fuel ran
out, which `bfsLayersFuel_sufficient` below shows never happens for the
fuel used by `normalBFSLayers`. -/
def bfsLayersAux (links : List RawLink) :
    Nat → List String → List String → Nat → Option (List NodeLayer)
  | 0, _, _, _ => none
  | fuel + 1, visited, currentLevel, level =>
    let validNodes := currentLevel.filter (fun id => ¬ id ∈ visited)
    if validNodes = [] then some []
    else
      let nextLevel := validNodes.flatMap (successors links)
      (bfsLayersAux links fuel (visited ++ validNodes) nextLevel (level + 1)).map
        (fun rest => ⟨level, validNodes⟩ :: rest)

/-- Fuel that always suffices for `bfsLayersAux` (each productive
iteration marks at least one fresh node visited, and every node that can
appear in a level is the start node or some link's target). -/
def bfsFuel (links : List RawLink) : Nat :=
  links.length + 2

/-- The non-adaptive traversal: standard BFS layering
(part_001 lines 116–137, reached when `cyberneticMode` is off). -/
def normalBFSLayers (startId : String) (links : List RawLink) : List NodeLayer :=
  (bfsLayersAux links (bfsFuel links) [] [startId] 0).getD []

/-- `getExplorationScore` (part_001 lines 30–43): `0` for an unknown node
or zero total feedback, else `(insightful*2 - familiar*2) / total`. -/
def getExplorationScore (nodeId : String) (explorationData : ExplMap) : ℚ :=
  match explorationData nodeId with
  | none => 0
  | some d =>
    let totalFeedback := d.insightful + d.neutral + d.familiar
    if totalFeedback = 0 then 0
    else ((d.insightful : ℚ) * 2 - (d.familiar : ℚ) * 2) / (totalFeedback : ℚ)

/-- Chunking of the score-sorted node list into layers of three
(part_001 lines 99–111): chunk `k` (1-indexed) becomes level `k`.
The counter argument is fuel bounding the length of the list. -/
def chunk3Aux : Nat → List String → Nat → List NodeLayer
  | 0, _, _ => []
  | _ + 1, [], _ => []
  | n + 1, x :: xs, k =>
    ⟨k, x :: xs.take 2⟩ :: chunk3Aux n (xs.drop 2) (k + 1)

/-- Partition a list into layers of three, starting at the given level. -/
def chunk3 (l : List String) (k : Nat) : List NodeLayer :=
  chunk3Aux l.length l k

/-- The comparison used by the adaptive sort: the source sorts the
node/score pairs with the comparator `(a, b) => b.score - a.score`,
i.e. descending by exploration score, stably. -/
def scoreGE (explorationData : ExplMap) (a b : String) : Prop :=
  getExplorationScore b explorationData ≤ getExplorationScore a explorationData

instance (e : ExplMap) : DecidableRel (scoreGE e) := fun a b =>
  inferInstanceAs (Decidable (_ ≤ _))

/-- `getAdaptiveHierarchicalLayers` (part_001 lines 46–137).

The source first runs a plain BFS loop (lines 57–80) that accumulates
`allNodesInPath`: per iteration the not-yet-visited members of the work
list, in order.  Those are exactly the node lists of the normal-mode
layers, concatenated, so `allNodesInPath` is embedded as that
concatenation.  In cybernetic mode with more than one reachable node the
non-start nodes are stably sorted by descending exploration score
(JS `Array.prototype.sort` is stable; a stable sort by the key is
`List.insertionSort` with the non-strict descending relation) and chunked
three per layer after the start-only layer 0; otherwise the normal BFS
layering is returned. -/
def getAdaptiveHierarchicalLayers (startId : String) (links : List RawLink)
    (explorationData : ExplMap) (cyberneticMode : Bool) : List NodeLayer :=
  let normalLayers := normalBFSLayers startId links
  let allNodesInPath := normalLayers.flatMap NodeLayer.nodes
  if cyberneticMode && decide (1 < allNodesInPath.length) then
    match allNodesInPath with
    | [] => []
    | startNode :: otherNodes =>
      let sorted := otherNodes.insertionSort (scoreGE explorationData)
      ⟨0, [startNode]⟩ :: chunk3 sorted 1
  else normalLayers

/-- The three feedback kinds offered by the feedback panel. -/
inductive FeedbackKind where
  | insightful
  | neutral
  | familiar
deriving DecidableEq, Repr

/-- `{...current, [type]: current[type] + 1}` — increment one counter. -/
def bumpKind : FeedbackKind → NodeExploration → NodeExploration
  | .insightful, d => { d with insightful := d.insightful + 1 }
  | .neutral, d => { d with neutral := d.neutral + 1 }
  | .familiar, d => { d with familiar := d.familiar + 1 }

/-- Projection of the counter a feedback kind addresses. -/
def kindCount : FeedbackKind → NodeExploration → Nat
  | .insightful, d => d.insightful
  | .neutral, d => d.neutral
  | .familiar, d => d.familiar

/-- The all-zero feedback record. -/
def zeroExploration : NodeExploration := ⟨0, 0, 0, 0⟩

/-- Total feedback recorded for a node id (0 when there is no record). -/
def totalFeedbackOf (explorationData : ExplMap) (nodeId : String) : Nat :=
  match explorationData nodeId with
  | none => 0
  | some d => d.insightful + d.neutral + d.familiar

/-- `handleFeedback` (part_001 lines 1111–1119), the map update only (the
subsequent layer regeneration is presentation state).  The source reads
`newExplorationData.get(nodeId)!`: when the id has no record, `current` is
`undefined` and evaluating `current[type] + 1` throws a `TypeError`, so
the update fails — embedded as `none`.  When a record exists the update
returns the map with that kind's counter incremented. -/
def handleFeedback (explorationData : ExplMap) (nodeId : String)
    (kind : FeedbackKind) : Option ExplMap :=
  match explorationData nodeId with
  | none => none
  | some current =>
    some (fun k => if k = nodeId then some (bumpKind kind current)
                   else explorationData k)

/-- `bfsPath` (src/CyberneticDesignNetwork.tsx lines 21–42): queue-based
BFS collecting every dequeued fresh node.  A dequeued node already marked
visited is skipped; a fresh node is appended to the path and its
not-yet-visited successors are pushed (the push-time filter uses the
visited set that already contains the current node).  Fuel-embedded;
`bfsPathFuel_sufficient` shows the fuel of `bfsPath` never runs out. -/
def bfsPathAux (links : List RawLink) :
    Nat → List String → List String → Option (List String)
  | 0, _, _ => none
  | fuel + 1, visited, queue =>
    match queue with
    | [] => some []
    | current :: rest =>
      if current ∈ visited then bfsPathAux links fuel visited rest
      else
        let visited' := current :: visited
        let pushes := (successors links current).filter (fun n => ¬ n ∈ visited')
        (bfsPathAux links fuel visited' (rest ++ pushes)).map
          (fun p => current :: p)

/-- The flat BFS traversal from a start node. -/
def bfsPath (startId : String) (links : List RawLink) : List String :=
  (bfsPathAux links (links.length + 2) [] [startId]).getD []

/-- Edges produced by `randomizeConnections` (same shape as `RawLink`;
the d3 component's `Link` stores plain id strings when generated). -/
structure Edge where
  source : String
  target : String
deriving DecidableEq, Repr

/-- `` `${source}-${target}` `` — the key recorded in `usedPairs`. -/
def pairKey (source target : String) : String :=
  source ++ "-" ++ target

/-- State of `randomizeConnections` (part_002 lines 130–195): the edge
list built so far, the set of used pair keys, both degree-count maps
(JS `Map.get(id) || 0` is a total function defaulting to `0`), and the
position in the random stream. -/
structure RandState where
  newLinks : List Edge
  usedPairs : List String
  outgoingCount : String → Nat
  incomingCount : String → Nat
  ctr : Nat

/-- The initial state of `randomizeConnections`. -/
def initRandState : RandState :=
  ⟨[], [], fun _ => 0, fun _ => 0, 0⟩

/-- The shared body of all three passes: given a drawn `(source, target)`
pair, add the edge and update the counts if it is not a self-loop and its
key is unused, else change nothing. -/
def tryAdd (st : RandState) (source target : String) : RandState :=
  if source ≠ target ∧ ¬ pairKey source target ∈ st.usedPairs then
    { st with
      newLinks := st.newLinks ++ [⟨source, target⟩]
      usedPairs := st.usedPairs ++ [pairKey source target]
      outgoingCount := fun id =>
        if id = source then st.outgoingCount source + 1 else st.outgoingCount id
      incomingCount := fun id =>
        if id = target then st.incomingCount target + 1 else st.incomingCount id }
  else st

/-- `nodeIds[Math.floor(Math.random() * nodeIds.length)]`: one draw from
the random stream, embedded as an arbitrary index stream reduced mod the
list length (`getD` with default `""` mirrors the `undefined` read from an
empty list, which then never passes the self-loop check, as in JS where
`undefined !== undefined` is false). -/
def drawNode (nodeIds : List String) (rand : Nat → Nat) (ctr : Nat) : String :=
  nodeIds.getD (rand ctr % nodeIds.length) ""

/-- The inner `while` of the first pass (lines 147–157): draw targets for
`src` until its out-degree reaches 3.  This loop has NO attempt cap in the
source; the fuel makes the possible divergence explicit (`none` = the
source loop would still be running after `fuel` iterations). -/
def drawLoopOut (nodeIds : List String) (rand : Nat → Nat) (src : String) :
    Nat → RandState → Option RandState
  | 0, _ => none
  | fuel + 1, st =>
    if st.outgoingCount src < 3 then
      let tgt := drawNode nodeIds rand st.ctr
      drawLoopOut nodeIds rand src fuel (tryAdd { st with ctr := st.ctr + 1 } src tgt)
    else some st

/-- First pass (lines 146–158): ensure each node has ≥ 3 outgoing edges. -/
def pass1 (nodeIds : List String) (rand : Nat → Nat) :
    List String → Nat → RandState → Option RandState
  | [], _, st => some st
  | src :: restIds, fuel, st =>
    match drawLoopOut nodeIds rand src fuel st with
    | none => none
    | some st' => pass1 nodeIds rand restIds fuel st'

/-- The inner `while` of the second pass (lines 162–172): draw sources for
`tgt` until its in-degree reaches 3.  Also uncapped in the source. -/
def drawLoopIn (nodeIds : List String) (rand : Nat → Nat) (tgt : String) :
    Nat → RandState → Option RandState
  | 0, _ => none
  | fuel + 1, st =>
    if st.incomingCount tgt < 3 then
      let src := drawNode nodeIds rand st.ctr
      drawLoopIn nodeIds rand tgt fuel (tryAdd { st with ctr := st.ctr + 1 } src tgt)
    else some st

/-- Second pass (lines 161–173): ensure each node has ≥ 3 incoming edges. -/
def pass2 (nodeIds : List String) (rand : Nat → Nat) :
    List String → Nat → RandState → Option RandState
  | [], _, st => some st
  | tgt :: restIds, fuel, st =>
    match drawLoopIn nodeIds rand tgt fuel st with
    | none => none
    | some st' => pass2 nodeIds rand restIds fuel st'

/-- Third pass (lines 176–192): top up with random pairs until the edge
count reaches `targetCount`, giving up after `targetCount * 10` attempts.
This loop is capped in the source, so it is embedded as a total function:
the first argument is the number of attempts still allowed. -/
def topUpLoop (nodeIds : List String) (rand : Nat → Nat) (targetCount : Nat) :
    Nat → RandState → RandState
  | 0, st => st
  | remaining + 1, st =>
    if st.newLinks.length < targetCount then
      let source := drawNode nodeIds rand st.ctr
      let target := drawNode nodeIds rand (st.ctr + 1)
      topUpLoop nodeIds rand targetCount remaining
        (tryAdd { st with ctr := st.ctr + 2 } source target)
    else st

/-- `randomizeConnections` (part_002 lines 130–195).  `targetCount` is the
original edge-set size the source reads from `originalLinksRef`; `rand` is
the random index stream; `fuel` bounds the uncapped min-degree loops
(`none` = one of them was still running after `fuel` iterations). -/
def randomizeConnections (nodeIds : List String) (targetCount : Nat)
    (rand : Nat → Nat) (fuel : Nat) : Option (List Edge) :=
  match pass1 nodeIds rand nodeIds fuel initRandState with
  | none => none
  | some st1 =>
    match pass2 nodeIds rand nodeIds fuel st1 with
    | none => none
    | some st2 =>
      some (topUpLoop nodeIds rand targetCount (targetCount * 10) st2).newLinks

/-- Out-degree of a node in an edge list. -/
def outDeg (links : List Edge) (id : String) : Nat :=
  (links.filter (fun e => e.source = id)).length

/-- In-degree of a node in an edge list. -/
def inDeg (links : List Edge) (id : String) : Nat :=
  (links.filter (fun e => e.target = id)).length

/-- `RawNode` from the source. -/
structure RawNode where
  id : String
  label : String
deriving DecidableEq, Repr

/-- Position-and-velocity record kept per node by `forceDirectedLayout`. -/
structure PosV where
  x : ℚ
  y : ℚ
  vx : ℚ
  vy : ℚ
deriving DecidableEq, Repr

/-- The positions `Map<string, {x,y,vx,vy}>`, as an association list in
insertion order (JS `Map` iterates in insertion order). -/
abbrev PosMap : Type := List (String × PosV)

/-- The transcendental `Math` functions used by the simulation, kept
abstract: every claim proved below holds for arbitrary values of them,
and every refutation is independent of their values. -/
structure MathFns where
  sqrt : ℚ → ℚ
  cos : ℚ → ℚ
  sin : ℚ → ℚ

/-- `Math.PI` — the IEEE-754 double closest to π is exactly this
rational. -/
def mathPI : ℚ := 884279719003555 / 281474976710656

/-- JS `Map.set`: overwrite an existing key in place, else append. -/
def mapSet (m : PosMap) (k : String) (v : PosV) : PosMap :=
  if (m.lookup k).isSome then
    m.map (fun p => if p.1 = k then (k, v) else p)
  else m ++ [(k, v)]

/-- In-place mutation of one entry's record (`positions.get(id)!` followed
by field assignments).  For a key that is absent nothing changes; in the
source this case would be a `TypeError`, but every use below is on keys
the initialization pass has inserted. -/
def mapModify (m : PosMap) (k : String) (f : PosV → PosV) : PosMap :=
  m.map (fun p => if p.1 = k then (p.1, f p.2) else p)

/-- One step of the initialization pass (the `nodes.forEach` body of
part_001 lines 144–165); `n` is `nodes.length`.  The accumulator carries
the map, the element index `i`, and the random-stream position. -/
def initStep (mf : MathFns) (rand : Nat → ℚ) (n : Nat) (randomize : Bool)
    (acc : PosMap × Nat × Nat) (node : RawNode) : PosMap × Nat × Nat :=
  let m := acc.1
  let i := acc.2.1
  let ctr := acc.2.2
  if randomize then
    let angle := rand ctr * mathPI * 2
    let radius := 2 + rand (ctr + 1) * 3
    let p : PosV := ⟨mf.cos angle * radius, mf.sin angle * radius,
      (rand (ctr + 2) - 1/2) * (1/10), (rand (ctr + 3) - 1/2) * (1/10)⟩
    (mapSet m node.id p, i + 1, ctr + 4)
  else
    let angle := ((i : ℚ) / (n : ℚ)) * mathPI * 2
    let p : PosV := ⟨mf.cos angle * (7/2), mf.sin angle * (7/2), 0, 0⟩
    (mapSet m node.id p, i + 1, ctr)

/-- Initialization pass of `forceDirectedLayout` (part_001 lines 144–165).
Returns the position map together with the number of random values
consumed (4 per node if `randomize`, none otherwise). -/
def initPositions (mf : MathFns) (rand : Nat → ℚ) (nodes : List RawNode)
    (randomize : Bool) : PosMap × Nat :=
  let res := nodes.foldl (initStep mf rand nodes.length randomize) ([], 0, 0)
  (res.1, res.2.2)

/-- Repulsion pass (lines 174–192): for every ordered pair of distinct
nodes, push A away from B; positions are read and only velocities are
written, so the in-place mutation is a fold. -/
def repulsionPass (mf : MathFns) (nodes : List RawNode) (m0 : PosMap) : PosMap :=
  nodes.foldl
    (fun mA nodeA =>
      nodes.foldl
        (fun m nodeB =>
          if nodeA.id = nodeB.id then m
          else
            match m.lookup nodeA.id, m.lookup nodeB.id with
            | some posA, some posB =>
              let dx := posA.x - posB.x
              let dy := posA.y - posB.y
              let distSq := dx * dx + dy * dy + 1/100
              let dist := mf.sqrt distSq
              let force := (1/2) / distSq
              mapModify m nodeA.id (fun p =>
                { p with vx := p.vx + dx / dist * force,
                         vy := p.vy + dy / dist * force })
            | _, _ => m)
        mA)
    m0

/-- Attraction pass (lines 195–210): for every link whose BOTH endpoints
have positions, pull them together symmetrically; a link with a dangling
endpoint is skipped (`if (!posA || !posB) return`). -/
def attractionPass (mf : MathFns) (links : List RawLink) (m0 : PosMap) : PosMap :=
  links.foldl
    (fun m link =>
      match m.lookup link.source, m.lookup link.target with
      | some posA, some posB =>
        let dx := posB.x - posA.x
        let dy := posB.y - posA.y
        let dist := mf.sqrt (dx * dx + dy * dy + 1/100)
        let force := dist * (1/50)
        let m1 := mapModify m link.source (fun p =>
          { p with vx := p.vx + dx / dist * force,
                   vy := p.vy + dy / dist * force })
        mapModify m1 link.target (fun p =>
          { p with vx := p.vx - dx / dist * force,
                   vy := p.vy - dy / dist * force })
      | _, _ => m)
    m0

/-- Integration pass (lines 213–225): `x += vx`, `y += vy`, damp the
velocity by `0.85`, and — when `jitter` is on — add a random jitter in
`[-0.025, 0.025)` to each coordinate (two random draws per node). -/
def updatePass (nodes : List RawNode) (rand : Nat → ℚ) (jitter : Bool)
    (acc : PosMap × Nat) : PosMap × Nat :=
  nodes.foldl
    (fun (a : PosMap × Nat) node =>
      if jitter then
        (mapModify a.1 node.id (fun p =>
          ⟨p.x + p.vx + (rand a.2 - 1/2) * (1/20),
           p.y + p.vy + (rand (a.2 + 1) - 1/2) * (1/20),
           p.vx * (17/20), p.vy * (17/20)⟩), a.2 + 2)
      else
        (mapModify a.1 node.id (fun p =>
          ⟨p.x + p.vx, p.y + p.vy, p.vx * (17/20), p.vy * (17/20)⟩), a.2))
    acc

/-- One simulation step: repulsion, attraction, then integration with
jitter during the first third of the iterations in randomize mode.
`iter < iterations / 3` is a JS float comparison, hence the `ℚ` cast. -/
def simulateIter (mf : MathFns) (rand : Nat → ℚ) (nodes : List RawNode)
    (links : List RawLink) (randomize : Bool) (iterations : Nat)
    (acc : PosMap × Nat) (iter : Nat) : PosMap × Nat :=
  let m1 := repulsionPass mf nodes acc.1
  let m2 := attractionPass mf links m1
  updatePass nodes rand
    (randomize && decide ((iter : ℚ) < (iterations : ℚ) / 3)) (m2, acc.2)

/-- The simulation part of `forceDirectedLayout` (lines 144–226):
initialization followed by 100 (or 200 when randomized) force steps. -/
def simPositions (mf : MathFns) (rand : Nat → ℚ) (nodes : List RawNode)
    (links : List RawLink) (randomize : Bool) : PosMap × Nat :=
  let iterations := if randomize then 200 else 100
  (List.range iterations).foldl
    (simulateIter mf rand nodes links randomize iterations)
    (initPositions mf rand nodes randomize)

/-- `Math.min` fold starting from `Infinity`: `none` plays Infinity and
is returned only for an empty list. -/
def foldMinQ (l : List ℚ) : Option ℚ :=
  l.foldl (fun a x => match a with | none => some x | some b => some (min b x)) none

/-- `Math.max` fold starting from `-Infinity`. -/
def foldMaxQ (l : List ℚ) : Option ℚ :=
  l.foldl (fun a x => match a with | none => some x | some b => some (max b x)) none

/-- The x coordinates of a position map, in entry order. -/
def xsOf (m : PosMap) : List ℚ :=
  m.map (fun p => p.2.x)

/-- The y coordinates of a position map, in entry order. -/
def ysOf (m : PosMap) : List ℚ :=
  m.map (fun p => p.2.y)

/-- Normalization pass of `forceDirectedLayout` (lines 228–253): compute
the bounding box, scale uniformly so the larger range maps to 8 (the
`|| 1` fallback replaces a zero range by 1), and recenter on the
bounding-box midpoint.  The folds start from `Infinity`/`-Infinity`,
embedded as `none`, which survives only for an empty map; there the
`getD 0` defaults differ from the source's non-finite scalars, but no
entry exists to transform, so the result (the empty map) agrees. -/
def normalizePositions (m : PosMap) : PosMap :=
  let minX := (foldMinQ (xsOf m)).getD 0
  let maxX := (foldMaxQ (xsOf m)).getD 0
  let minY := (foldMinQ (ysOf m)).getD 0
  let maxY := (foldMaxQ (ysOf m)).getD 0
  let rangeX := maxX - minX
  let rangeY := maxY - minY
  let maxRange0 := max rangeX rangeY
  let maxRange := if maxRange0 = 0 then 1 else maxRange0
  let scale := 8 / maxRange
  let centerX := (minX + maxX) / 2
  let centerY := (minY + maxY) / 2
  m.map (fun p => (p.1,
    { p.2 with x := (p.2.x - centerX) * scale, y := (p.2.y - centerY) * scale }))

/-- `forceDirectedLayout` (part_001 lines 140–254): simulation followed by
the mandatory normalization. -/
def forceDirectedLayout (mf : MathFns) (rand : Nat → ℚ) (nodes : List RawNode)
    (links : List RawLink) (randomize : Bool) : PosMap :=
  normalizePositions (simPositions mf rand nodes links randomize).1

/-- Measurement: the larger dimension of the bounding box of a position
map (`0` for an empty map). -/
def bboxLargerDim (m : PosMap) : ℚ :=
  max ((foldMaxQ (xsOf m)).getD 0 - (foldMinQ (xsOf m)).getD 0)
    ((foldMaxQ (ysOf m)).getD 0 - (foldMinQ (ysOf m)).getD 0)

/-- Measurement: the midpoint of the bounding box of a position map. -/
def bboxMidpoint (m : PosMap) : ℚ × ℚ :=
  (((foldMinQ (xsOf m)).getD 0 + (foldMaxQ (xsOf m)).getD 0) / 2,
    ((foldMinQ (ysOf m)).getD 0 + (foldMaxQ (ysOf m)).getD 0) / 2)

/-- Measurement, following the claim's words: the centroid (the MEAN of
all positions) of a position map. -/
def centroidMean (m : PosMap) : ℚ × ℚ :=
  ((xsOf m).sum / (m.length : ℚ), (ysOf m).sum / (m.length : ℚ))

/-- Termination measure for the BFS layering loop: whether the start id is
still unvisited, plus the number of links whose target is unvisited. -/
def bfsMeasure (s : String) (links : List RawLink) (visited : List String) : Nat :=
  (if s ∈ visited then 0 else 1) +
    links.countP (fun l => decide (¬ l.target ∈ visited))

/-- A degenerate `MathFns` instance used to probe `forceDirectedLayout`: a
square root that is constantly `0` (making every repulsion increment
`dx / 0 * force = 0`), a cosine that squares its argument measured in
units of π (so distinct nodes land at distinct abscissas), and a sine
that is constantly `0`. -/
def sqrtZeroFns : MathFns :=
  ⟨fun _ => 0, fun q => (q / mathPI) * (q / mathPI), fun _ => 0⟩

/-- A `Math.random` stream that always yields `0`. -/
def randZero : Nat → ℚ := fun _ => 0

/-! ## Helper lemmas -/

/-- A count strictly drops when a counted element stops satisfying the
predicate and no element starts satisfying it. -/
theorem countP_lt_of_mem {α : Type} (l : List α) (p q : α → Bool)
    (hmono : ∀ a ∈ l, q a = true → p a = true) (a : α) (ha : a ∈ l)
    (hpa : p a = true) (hqa : q a = false) :
    l.countP q < l.countP p := by
  induction l with
  | nil => cases ha
  | cons b t ih =>
    rcases List.mem_cons.mp ha with rfl | hat
    · have hle : t.countP q ≤ t.countP p :=
        List.countP_mono_left (fun x hx hqx => hmono x (List.mem_cons_of_mem _ hx) hqx)
      have h1 : (a :: t).countP q = t.countP q := by
        rw [List.countP_cons, hqa]; simp
      have h2 : (a :: t).countP p = t.countP p + 1 := by
        rw [List.countP_cons, hpa]; simp
      omega
    · have hlt : t.countP q < t.countP p :=
        ih (fun x hx hqx => hmono x (List.mem_cons_of_mem _ hx) hqx) hat
      have hb : (if q b = true then 1 else 0) ≤ (if p b = true then 1 else 0) := by
        by_cases hqb : q b = true
        · rw [if_pos hqb, if_pos (hmono b (List.mem_cons_self b t) hqb)]
        · rw [if_neg hqb]; omega
      rw [List.countP_cons, List.countP_cons]
      omega

/-- A single link step reaches a successor. -/
theorem mem_successors_of_linkRel {links : List RawLink} {a b : String}
    (h : linkRel links a b) : b ∈ successors links a := by
  obtain ⟨l, hl, hs, ht⟩ := h
  simp only [successors, List.mem_map, List.mem_filter]
  exact ⟨l, ⟨hl, by simp [hs]⟩, ht⟩

/-- Conversely, each successor is one link step away. -/
theorem linkRel_of_mem_successors {links : List RawLink} {a b : String}
    (h : b ∈ successors links a) : linkRel links a b := by
  simp only [successors, List.mem_map, List.mem_filter] at h
  obtain ⟨l, ⟨hl, hs⟩, ht⟩ := h
  exact ⟨l, hl, by simpa using hs, ht⟩

/-! ## BFS layering (`getAdaptiveHierarchicalLayers`, non-adaptive path) -/

/-- The fuel of `bfsLayersAux` never runs out while the measure is below
it, provided every work-list node is the start node or some link target. -/
theorem bfsLayersAux_isSome (links : List RawLink) (s : String) :
    ∀ (fuel : Nat) (visited currentLevel : List String) (level : Nat),
      (∀ x ∈ currentLevel, x = s ∨ ∃ l ∈ links, l.target = x) →
      bfsMeasure s links visited < fuel →
      (bfsLayersAux links fuel visited currentLevel level).isSome = true := by
  intro fuel
  induction fuel with
  | zero => intro _ _ _ _ hm; omega
  | succ n ih =>
    intro visited currentLevel level hcl hm
    rw [bfsLayersAux]
    by_cases hv : currentLevel.filter (fun id => ¬ id ∈ visited) = []
    · rw [if_pos hv]; rfl
    · rw [if_neg hv]
      simp only [Option.isSome_map']
      obtain ⟨v, hvmem⟩ := List.exists_mem_of_ne_nil _ hv
      have hvcl : v ∈ currentLevel := (List.mem_filter.mp hvmem).1
      have hvnv : ¬ v ∈ visited := by
        have := (List.mem_filter.mp hvmem).2
        simpa using this
      apply ih
      · intro x hx
        simp only [List.mem_flatMap] at hx
        obtain ⟨y, _, hxy⟩ := hx
        right
        simp only [successors, List.mem_map, List.mem_filter] at hxy
        obtain ⟨l, ⟨hl, _⟩, ht⟩ := hxy
        exact ⟨l, hl, ht⟩
      · have hmono : ∀ l ∈ links,
            (decide (¬ l.target ∈ visited ++ currentLevel.filter (fun id => ¬ id ∈ visited))) = true →
            (decide (¬ l.target ∈ visited)) = true := by
          intro l _ h
          rw [decide_eq_true_iff] at h ⊢
          exact fun hmem => h (List.mem_append_left _ hmem)
        have hcle : links.countP
            (fun l => decide (¬ l.target ∈ visited ++ currentLevel.filter (fun id => ¬ id ∈ visited))) ≤
            links.countP (fun l => decide (¬ l.target ∈ visited)) :=
          List.countP_mono_left hmono
        have hdec : bfsMeasure s links
            (visited ++ currentLevel.filter (fun id => ¬ id ∈ visited)) <
            bfsMeasure s links visited := by
          rcases hcl v hvcl with rfl | ⟨l₀, hl₀, ht₀⟩
          · unfold bfsMeasure
            rw [if_neg hvnv, if_pos (List.mem_append_right _ hvmem)]
            omega
          · have hstrict : links.countP
                (fun l => decide (¬ l.target ∈ visited ++ currentLevel.filter (fun id => ¬ id ∈ visited))) <
                links.countP (fun l => decide (¬ l.target ∈ visited)) := by
              apply countP_lt_of_mem links _ _ hmono l₀ hl₀
              · rw [decide_eq_true_iff, ht₀]; exact hvnv
              · rw [decide_eq_false_iff_not, not_not, ht₀]
                exact List.mem_append_right _ hvmem
            have hite : (if s ∈ visited ++ currentLevel.filter (fun id => ¬ id ∈ visited) then 0 else 1) ≤
                (if s ∈ visited then 0 else 1) := by
              by_cases hs : s ∈ visited
              · rw [if_pos hs, if_pos (List.mem_append_left _ hs)]
              · rw [if_neg hs]; split <;> omega
            unfold bfsMeasure
            omega
        omega

/-- Every work-list node ends up visited or in some emitted layer, and the
emitted layers are closed under successors up to the visited set. -/
theorem bfsLayersAux_mem_spec (links : List RawLink) :
    ∀ (fuel : Nat) (visited currentLevel : List String) (level : Nat)
      (layers : List NodeLayer),
      bfsLayersAux links fuel visited currentLevel level = some layers →
      (∀ x ∈ currentLevel, x ∈ visited ∨ ∃ L ∈ layers, x ∈ L.nodes) ∧
      (∀ L ∈ layers, ∀ y ∈ L.nodes, ∀ z ∈ successors links y,
        z ∈ visited ∨ ∃ L' ∈ layers, z ∈ L'.nodes) := by
  intro fuel
  induction fuel with
  | zero => intro _ _ _ _ h; cases h
  | succ n ih =>
    intro visited currentLevel level layers h
    rw [bfsLayersAux] at h
    by_cases hv : currentLevel.filter (fun id => ¬ id ∈ visited) = []
    · rw [if_pos hv] at h
      obtain rfl : ([] : List NodeLayer) = layers := by
        simpa using h
      constructor
      · intro x hx
        left
        have := List.filter_eq_nil_iff.mp hv x hx
        simpa using this
      · intro L hL; cases hL
    · rw [if_neg hv] at h
      rw [Option.map_eq_some'] at h
      obtain ⟨rest, hrec, hlayers⟩ := h
      obtain ⟨h1, h2⟩ := ih _ _ _ _ hrec
      subst hlayers
      have hdispatch : ∀ z : String,
          (z ∈ visited ++ currentLevel.filter (fun id => ¬ id ∈ visited) ∨
            ∃ L' ∈ rest, z ∈ L'.nodes) →
          z ∈ visited ∨
            ∃ L' ∈ (⟨level, currentLevel.filter (fun id => ¬ id ∈ visited)⟩ :: rest : List NodeLayer),
              z ∈ L'.nodes := by
        intro z hz
        rcases hz with hz | ⟨L', hL', hzL'⟩
        · rcases List.mem_append.mp hz with hz | hz
          · exact Or.inl hz
          · exact Or.inr ⟨_, List.mem_cons_self _ _, hz⟩
        · exact Or.inr ⟨L', List.mem_cons_of_mem _ hL', hzL'⟩
      constructor
      · intro x hx
        by_cases hxv : x ∈ visited
        · exact Or.inl hxv
        · refine Or.inr ⟨_, List.mem_cons_self _ _, ?_⟩
          simp only [List.mem_filter]
          exact ⟨hx, by simpa using hxv⟩
      · intro L hL y hy z hz
        rcases List.mem_cons.mp hL with rfl | hLrest
        · have hznext : z ∈ (currentLevel.filter (fun id => ¬ id ∈ visited)).flatMap
              (successors links) :=
            List.mem_flatMap.mpr ⟨y, hy, hz⟩
          exact hdispatch z (h1 z hznext)
        · exact hdispatch z (h2 L hLrest y hy z hz)

/-- Layer nodes are reachable whenever the work list is. -/
theorem bfsLayersAux_reach (links : List RawLink) (s : String) :
    ∀ (fuel : Nat) (visited currentLevel : List String) (level : Nat)
      (layers : List NodeLayer),
      (∀ x ∈ currentLevel, Reach links s x) →
      bfsLayersAux links fuel visited currentLevel level = some layers →
      ∀ L ∈ layers, ∀ x ∈ L.nodes, Reach links s x := by
  intro fuel
  induction fuel with
  | zero => intro _ _ _ _ _ h; cases h
  | succ n ih =>
    intro visited currentLevel level layers hreach h
    rw [bfsLayersAux] at h
    by_cases hv : currentLevel.filter (fun id => ¬ id ∈ visited) = []
    · rw [if_pos hv] at h
      obtain rfl : ([] : List NodeLayer) = layers := by simpa using h
      intro L hL; cases hL
    · rw [if_neg hv] at h
      rw [Option.map_eq_some'] at h
      obtain ⟨rest, hrec, hlayers⟩ := h
      subst hlayers
      have hreach' : ∀ x ∈ (currentLevel.filter (fun id => ¬ id ∈ visited)).flatMap
          (successors links), Reach links s x := by
        intro x hx
        obtain ⟨y, hy, hxy⟩ := List.mem_flatMap.mp hx
        have hys : Reach links s y := hreach y (List.mem_of_mem_filter hy)
        exact Relation.ReflTransGen.tail hys (linkRel_of_mem_successors hxy)
      intro L hL x hx
      rcases List.mem_cons.mp hL with rfl | hLrest
      · exact hreach x (List.mem_of_mem_filter hx)
      · exact ih _ _ _ _ hreach' hrec L hLrest x hx

/-- Emitted layer nodes avoid the visited set, and distinct layers are
disjoint. -/
theorem bfsLayersAux_disjoint (links : List RawLink) :
    ∀ (fuel : Nat) (visited currentLevel : List String) (level : Nat)
      (layers : List NodeLayer),
      bfsLayersAux links fuel visited currentLevel level = some layers →
      (∀ L ∈ layers, ∀ x ∈ L.nodes, ¬ x ∈ visited) ∧
      layers.Pairwise (fun L1 L2 => ∀ x ∈ L1.nodes, ¬ x ∈ L2.nodes) := by
  intro fuel
  induction fuel with
  | zero => intro _ _ _ _ h; cases h
  | succ n ih =>
    intro visited currentLevel level layers h
    rw [bfsLayersAux] at h
    by_cases hv : currentLevel.filter (fun id => ¬ id ∈ visited) = []
    · rw [if_pos hv] at h
      obtain rfl : ([] : List NodeLayer) = layers := by simpa using h
      exact ⟨fun L hL => (fun x hx => by cases hL), List.Pairwise.nil⟩
    · rw [if_neg hv] at h
      rw [Option.map_eq_some'] at h
      obtain ⟨rest, hrec, hlayers⟩ := h
      subst hlayers
      obtain ⟨hnv, hpw⟩ := ih _ _ _ _ hrec
      have hfilter_nv : ∀ x ∈ currentLevel.filter (fun id => ¬ id ∈ visited),
          ¬ x ∈ visited := by
        intro x hx
        have := (List.mem_filter.mp hx).2
        simpa using this
      constructor
      · intro L hL x hx
        rcases List.mem_cons.mp hL with rfl | hLrest
        · exact hfilter_nv x hx
        · exact fun hxv => hnv L hLrest x hx (List.mem_append_left _ hxv)
      · refine List.pairwise_cons.mpr ⟨?_, hpw⟩
        intro L' hL' x hx hxL'
        exact hnv L' hL' x hxL' (List.mem_append_right _ hx)

/-- The top-level BFS layering call always returns within its fuel. -/
theorem normalBFSLayers_some (startId : String) (links : List RawLink) :
    ∃ layers, bfsLayersAux links (bfsFuel links) [] [startId] 0 = some layers ∧
      normalBFSLayers startId links = layers := by
  have hsome : (bfsLayersAux links (bfsFuel links) [] [startId] 0).isSome = true := by
    apply bfsLayersAux_isSome links startId
    · intro x hx
      left
      simpa using hx
    · unfold bfsMeasure bfsFuel
      have hcount : links.countP (fun l => decide (¬ l.target ∈ ([] : List String))) ≤
          links.length := List.countP_le_length _
      have hite : (if startId ∈ ([] : List String) then 0 else 1) = 1 :=
        if_neg (List.not_mem_nil _)
      omega
  obtain ⟨layers, hlayers⟩ := Option.isSome_iff_exists.mp hsome
  exact ⟨layers, hlayers, by rw [normalBFSLayers, hlayers]; rfl⟩

/-- The BFS layering starts with the singleton start layer. -/
theorem normalBFSLayers_cons (startId : String) (links : List RawLink) :
    ∃ rest, normalBFSLayers startId links = ⟨0, [startId]⟩ :: rest := by
  have hsome : (bfsLayersAux links (links.length + 1) [startId]
      ([startId].flatMap (successors links)) 1).isSome = true := by
    apply bfsLayersAux_isSome links startId
    · intro x hx
      simp only [List.flatMap_cons, List.flatMap_nil, List.append_nil] at hx
      obtain ⟨l, ⟨hl, _⟩, ht⟩ := by
        simpa only [successors, List.mem_map, List.mem_filter] using hx
      exact Or.inr ⟨l, hl, ht⟩
    · unfold bfsMeasure
      have hcount : links.countP (fun l => decide (¬ l.target ∈ [startId])) ≤
          links.length := List.countP_le_length _
      have hite : (if startId ∈ [startId] then 0 else 1) = 0 :=
        if_pos (List.mem_singleton_self _)
      omega
  obtain ⟨rest, hrest⟩ := Option.isSome_iff_exists.mp hsome
  refine ⟨rest, ?_⟩
  rw [normalBFSLayers]
  show (bfsLayersAux links (links.length + 1 + 1) [] [startId] 0).getD [] = _
  rw [bfsLayersAux]
  have hfilter : ([startId].filter (fun id => ¬ id ∈ ([] : List String))) = [startId] := by
    simp
  simp only [hfilter]
  rw [if_neg (by simp), List.nil_append, Nat.zero_add, hrest]
  rfl

/-- With `cyberneticMode` off, `getAdaptiveHierarchicalLayers` is the
plain BFS layering. -/
theorem getAdaptive_false (startId : String) (links : List RawLink)
    (explorationData : ExplMap) :
    getAdaptiveHierarchicalLayers startId links explorationData false =
      normalBFSLayers startId links := rfl

/-- C1 (counterexample).  On the diamond graph `a→b, a→c, b→d, c→d` the
non-adaptive traversal from `a` puts `d` TWICE into layer 2 — the
within-layer visited-check the claim describes does not exist, because the
survivors of one work list are only marked visited after the whole filter
has run — so the reachable node `d` occurs twice across the layering,
refuting "every reachable node id occurs exactly once ... never twice
within one layer". -/
theorem c1_counterexample :
    ((getAdaptiveHierarchicalLayers "a"
        [⟨"a","b"⟩, ⟨"a","c"⟩, ⟨"b","d"⟩, ⟨"c","d"⟩] (fun _ => none) false).flatMap
        NodeLayer.nodes).count "d" = 2 ∧
    getAdaptiveHierarchicalLayers "a"
        [⟨"a","b"⟩, ⟨"a","c"⟩, ⟨"b","d"⟩, ⟨"c","d"⟩] (fun _ => none) false =
      [⟨0, ["a"]⟩, ⟨1, ["b","c"]⟩, ⟨2, ["d","d"]⟩] ∧
    Reach [⟨"a","b"⟩, ⟨"a","c"⟩, ⟨"b","d"⟩, ⟨"c","d"⟩] "a" "d" := by
  refine ⟨by decide, by decide, ?_⟩
  have h1 : Reach [⟨"a","b"⟩, ⟨"a","c"⟩, ⟨"b","d"⟩, ⟨"c","d"⟩] "a" "b" :=
    Relation.ReflTransGen.single ⟨⟨"a","b"⟩, by decide, rfl, rfl⟩
  exact Relation.ReflTransGen.tail h1 ⟨⟨"b","d"⟩, by decide, rfl, rfl⟩

/-- A node id belongs to some BFS layer exactly when it is reachable. -/
theorem normalBFSLayers_mem_iff (startId : String) (links : List RawLink) (x : String) :
    (∃ L ∈ normalBFSLayers startId links, x ∈ L.nodes) ↔ Reach links startId x := by
  obtain ⟨layers, hsome, heq⟩ := normalBFSLayers_some startId links
  obtain ⟨hmem, hclosure⟩ := bfsLayersAux_mem_spec links _ _ _ _ _ hsome
  have hstart : ∃ L ∈ layers, startId ∈ L.nodes := by
    rcases hmem startId (by simp) with h | h
    · cases h
    · exact h
  rw [heq]
  constructor
  · rintro ⟨L, hL, hx⟩
    exact bfsLayersAux_reach links startId _ _ _ _ _
      (fun z hz => by simp only [List.mem_singleton] at hz; subst hz; exact Relation.ReflTransGen.refl)
      hsome L hL x hx
  · intro hreach
    induction hreach with
    | refl => exact hstart
    | tail hab hbc ih =>
      obtain ⟨L, hL, hbL⟩ := ih
      rcases hclosure L hL _ hbL _ (mem_successors_of_linkRel hbc) with h | h
      · cases h
      · exact h

/-- Distinct BFS layers never share a node id. -/
theorem normalBFSLayers_pairwise (startId : String) (links : List RawLink) :
    (normalBFSLayers startId links).Pairwise
      (fun L1 L2 => ∀ x ∈ L1.nodes, ¬ x ∈ L2.nodes) := by
  obtain ⟨layers, hsome, heq⟩ := normalBFSLayers_some startId links
  rw [heq]
  exact (bfsLayersAux_disjoint links _ _ _ _ _ hsome).2

/-- C1 (amended).  For every link list and start node, the non-adaptive
traversal produces a layering whose first layer is exactly
`{level 0, [start]}`, in which a node id belongs to some layer exactly
when it is reachable from the start, and in which no node id belongs to
two distinct layers; however a node CAN occur with multiplicity greater
than one inside its single layer (when it is a successor of several
distinct nodes of the previous layer), which is the only part of the
original claim that fails. -/
theorem c1_amended_theorem (startId : String) (links : List RawLink)
    (explorationData : ExplMap) :
    (getAdaptiveHierarchicalLayers startId links explorationData false).head? =
      some ⟨0, [startId]⟩ ∧
    (∀ x, (∃ L ∈ getAdaptiveHierarchicalLayers startId links explorationData false,
        x ∈ L.nodes) ↔ Reach links startId x) ∧
    (getAdaptiveHierarchicalLayers startId links explorationData false).Pairwise
      (fun L1 L2 => ∀ x ∈ L1.nodes, ¬ x ∈ L2.nodes) := by
  rw [getAdaptive_false]
  obtain ⟨rest, hcons⟩ := normalBFSLayers_cons startId links
  exact ⟨by rw [hcons]; rfl, fun x => normalBFSLayers_mem_iff startId links x,
    normalBFSLayers_pairwise startId links⟩

/-! ## Exploration score and feedback recording -/

/-- C7.  For every node id and exploration map: the score is `0` when the
node has no record; `0` when the record's total feedback is zero;
`(insightful*2 - familiar*2) / total` when the total is positive; and it
always lies in `[-2, 2]`. -/
theorem c7_theorem (nodeId : String) (explorationData : ExplMap) :
    (explorationData nodeId = none → getExplorationScore nodeId explorationData = 0) ∧
    (∀ d, explorationData nodeId = some d →
      d.insightful + d.neutral + d.familiar = 0 →
      getExplorationScore nodeId explorationData = 0) ∧
    (∀ d, explorationData nodeId = some d →
      0 < d.insightful + d.neutral + d.familiar →
      getExplorationScore nodeId explorationData =
        ((d.insightful : ℚ) * 2 - (d.familiar : ℚ) * 2) /
          ((d.insightful + d.neutral + d.familiar : Nat) : ℚ)) ∧
    -2 ≤ getExplorationScore nodeId explorationData ∧
    getExplorationScore nodeId explorationData ≤ 2 := by
  rcases h : explorationData nodeId with _ | d
  · have hs : getExplorationScore nodeId explorationData = 0 := by
      unfold getExplorationScore; rw [h]
    rw [hs]
    refine ⟨fun _ => rfl, fun d hd _ => ?_, fun d hd _ => ?_, by norm_num, by norm_num⟩
    · simp at hd
    · simp at hd
  · have key : getExplorationScore nodeId explorationData =
        if d.insightful + d.neutral + d.familiar = 0 then 0
        else ((d.insightful : ℚ) * 2 - (d.familiar : ℚ) * 2) /
          ((d.insightful + d.neutral + d.familiar : Nat) : ℚ) := by
      unfold getExplorationScore; rw [h]
    by_cases ht : d.insightful + d.neutral + d.familiar = 0
    · rw [key, if_pos ht]
      refine ⟨fun _ => rfl, fun d' _ _ => rfl, fun d' hd' hlt => ?_, by norm_num, by norm_num⟩
      obtain rfl : d = d' := Option.some.inj hd'
      exact absurd ht (by omega)
    · rw [key, if_neg ht]
      have htq : (0 : ℚ) < ((d.insightful + d.neutral + d.familiar : Nat) : ℚ) := by
        exact_mod_cast Nat.pos_of_ne_zero ht
      have hi : (0 : ℚ) ≤ (d.insightful : ℚ) := Nat.cast_nonneg _
      have hnn : (0 : ℚ) ≤ (d.neutral : ℚ) := Nat.cast_nonneg _
      have hf : (0 : ℚ) ≤ (d.familiar : ℚ) := Nat.cast_nonneg _
      refine ⟨fun hn => ?_, fun d' hd' hz => ?_, fun d' hd' _ => ?_, ?_, ?_⟩
      · simp at hn
      · obtain rfl : d = d' := Option.some.inj hd'
        exact absurd hz ht
      · obtain rfl : d = d' := Option.some.inj hd'
        rfl
      · rw [le_div_iff htq]
        push_cast
        linarith
      · rw [div_le_iff htq]
        push_cast
        linarith

/-- C7 (witness): a node with one insightful vote scores `(1*2 − 0*2)/1`,
inside the range. -/
theorem c7_witness :
    getExplorationScore "a" (fun k => if k = "a" then some ⟨0, 1, 0, 0⟩ else none) =
      (((1 : Nat) : ℚ) * 2 - ((0 : Nat) : ℚ) * 2) / (((1 + 0 + 0 : Nat)) : ℚ) ∧
    -2 ≤ getExplorationScore "a" (fun k => if k = "a" then some ⟨0, 1, 0, 0⟩ else none) ∧
    getExplorationScore "a" (fun k => if k = "a" then some ⟨0, 1, 0, 0⟩ else none) ≤ 2 := by
  have h := c7_theorem "a" (fun k => if k = "a" then some ⟨0, 1, 0, 0⟩ else none)
  exact ⟨h.2.2.1 ⟨0, 1, 0, 0⟩ rfl (by norm_num), h.2.2.2.1, h.2.2.2.2⟩

/-- C3 (counterexample).  Recording feedback for a node id with NO record
in the exploration map does not succeed: `handleFeedback` reads the record
with a non-null assertion (`newExplorationData.get(nodeId)!`) and then
evaluates `current[type] + 1`, which throws on `undefined` — the failure
is the `none` result here.  This refutes "recording feedback of any kind
succeeds ... treating the absent node as having all-zero counters". -/
theorem c3_counterexample :
    handleFeedback (fun _ => none) "a" FeedbackKind.insightful = none := rfl

/-- C3 (amended).  Feedback recording succeeds exactly for node ids that
HAVE a record (the component initializes one per node): the kind's counter
is incremented by 1, hence equals 1 when the record was all-zero; for an
absent id the update fails instead of treating it as all-zero. -/
theorem c3_amended_theorem (explorationData : ExplMap) (nodeId : String)
    (kind : FeedbackKind) (current : NodeExploration)
    (h : explorationData nodeId = some current) :
    ∃ updated, handleFeedback explorationData nodeId kind = some updated ∧
      updated nodeId = some (bumpKind kind current) ∧
      kindCount kind (bumpKind kind current) = kindCount kind current + 1 ∧
      (current = zeroExploration → kindCount kind (bumpKind kind current) = 1) := by
  have heq : handleFeedback explorationData nodeId kind =
      some (fun k => if k = nodeId then some (bumpKind kind current)
        else explorationData k) := by
    unfold handleFeedback; rw [h]
  refine ⟨_, heq, by simp, ?_, ?_⟩
  · cases kind <;> rfl
  · intro hz; subst hz; cases kind <;> rfl

/-- C3 (witness): recording `insightful` on a present all-zero record
yields counter 1. -/
theorem c3_witness :
    ∃ updated, handleFeedback (fun k => if k = "a" then some zeroExploration else none)
        "a" FeedbackKind.insightful = some updated ∧
      updated "a" = some (bumpKind FeedbackKind.insightful zeroExploration) ∧
      kindCount FeedbackKind.insightful (bumpKind FeedbackKind.insightful zeroExploration) =
        kindCount FeedbackKind.insightful zeroExploration + 1 ∧
      (zeroExploration = zeroExploration →
        kindCount FeedbackKind.insightful (bumpKind FeedbackKind.insightful zeroExploration) = 1) :=
  c3_amended_theorem (fun k => if k = "a" then some zeroExploration else none)
    "a" FeedbackKind.insightful zeroExploration (by rfl)

/-! ## Adaptive reordering -/

/-- Every node of a chunk layer sits at a list index whose chunk number is
the layer's level. -/
theorem chunk3Aux_mem_index :
    ∀ (n : Nat) (l : List String) (k : Nat), l.length ≤ n →
      ∀ L ∈ chunk3Aux n l k, ∀ x ∈ L.nodes,
        ∃ i, l.get? i = some x ∧ L.level = i / 3 + k := by
  intro n
  induction n with
  | zero =>
    intro l k hlen L hL
    have : l = [] := List.eq_nil_of_length_eq_zero (Nat.le_zero.mp hlen)
    subst this
    cases hL
  | succ n ih =>
    intro l k hlen L hL x hx
    match l with
    | [] => cases hL
    | y :: ys =>
      rw [chunk3Aux] at hL
      rcases List.mem_cons.mp hL with rfl | hLrest
      · simp only at hx
        rcases List.mem_cons.mp hx with rfl | hxt
        · exact ⟨0, rfl, by simp⟩
        · obtain ⟨j, hj⟩ := List.mem_iff_get?.mp hxt
          have hjlt : j < 2 := by
            obtain ⟨h1, _⟩ := List.get?_eq_some.mp hj
            have hlen2 : (ys.take 2).length ≤ 2 := List.length_take_le 2 ys
            omega
          have hys : ys.get? j = some x := by
            have := List.getElem?_take (l := ys) (n := 2) (m := j)
            rw [if_pos hjlt] at this
            rw [← List.get?_eq_getElem?, ← List.get?_eq_getElem?] at this
            rw [← this]
            exact hj
          refine ⟨j + 1, by simpa using hys, ?_⟩
          simp only
          rw [Nat.div_eq_of_lt (by omega)]
          omega
      · have hlen' : (ys.drop 2).length ≤ n := by
          have : ys.length ≤ n := by simpa using Nat.succ_le_succ_iff.mp hlen
          simp only [List.length_drop]
          omega
        obtain ⟨i, hi, hlvl⟩ := ih (ys.drop 2) (k + 1) hlen' L hLrest x hx
        have hys : ys.get? (2 + i) = some x := by
          have := List.getElem?_drop ys 2 i
          rw [← List.get?_eq_getElem?, ← List.get?_eq_getElem?] at this
          rw [← this]
          exact hi
        refine ⟨2 + i + 1, by simpa using hys, ?_⟩
        rw [hlvl]
        have : 2 + i + 1 = i + 3 := by omega
    -- (i + 3) / 3 = i / 3 + 1
        rw [this, Nat.add_div_right i (by norm_num)]
        omega

/-- C8.  Adaptive reordering is monotone in score: in cybernetic mode, of
two reachable non-start nodes with recorded feedback, the higher-scoring
one is never placed in a later layer than the lower-scoring one (each of
its occurrences has layer index ≤ each of the other's). -/
theorem c8_theorem (startId A B : String) (links : List RawLink) (e : ExplMap)
    (hA : Reach links startId A) (hB : Reach links startId B)
    (hAs : A ≠ startId) (hBs : B ≠ startId)
    (hAf : totalFeedbackOf e A ≠ 0) (hBf : totalFeedbackOf e B ≠ 0)
    (hscore : getExplorationScore B e < getExplorationScore A e) :
    ∀ LA ∈ getAdaptiveHierarchicalLayers startId links e true, A ∈ LA.nodes →
      ∀ LB ∈ getAdaptiveHierarchicalLayers startId links e true, B ∈ LB.nodes →
        LA.level ≤ LB.level := by
  obtain ⟨rest, hcons⟩ := normalBFSLayers_cons startId links
  have hflat : (normalBFSLayers startId links).flatMap NodeLayer.nodes =
      startId :: rest.flatMap NodeLayer.nodes := by
    rw [hcons]; rfl
  have hAmem : A ∈ startId :: rest.flatMap NodeLayer.nodes := by
    rw [← hflat]
    obtain ⟨L, hL, hALn⟩ := (normalBFSLayers_mem_iff startId links A).mpr hA
    exact List.mem_flatMap.mpr ⟨L, hL, hALn⟩
  have hBmem : B ∈ startId :: rest.flatMap NodeLayer.nodes := by
    rw [← hflat]
    obtain ⟨L, hL, hBLn⟩ := (normalBFSLayers_mem_iff startId links B).mpr hB
    exact List.mem_flatMap.mpr ⟨L, hL, hBLn⟩
  have hAo : A ∈ rest.flatMap NodeLayer.nodes := by
    rcases List.mem_cons.mp hAmem with h | h
    · exact absurd h hAs
    · exact h
  have hBo : B ∈ rest.flatMap NodeLayer.nodes := by
    rcases List.mem_cons.mp hBmem with h | h
    · exact absurd h hBs
    · exact h
  have hlen : 1 < (startId :: rest.flatMap NodeLayer.nodes).length := by
    have h0 : 0 < (rest.flatMap NodeLayer.nodes).length := List.length_pos_of_mem hAo
    have h1 : (startId :: rest.flatMap NodeLayer.nodes).length =
        (rest.flatMap NodeLayer.nodes).length + 1 := List.length_cons _ _
    omega
  have hadapt : getAdaptiveHierarchicalLayers startId links e true =
      ⟨0, [startId]⟩ ::
        chunk3 ((rest.flatMap NodeLayer.nodes).insertionSort (scoreGE e)) 1 := by
    have hcond : (true && decide
        (1 < (startId :: rest.flatMap NodeLayer.nodes).length)) = true := by
      rw [Bool.true_and, decide_eq_true_iff]
      exact hlen
    simp only [getAdaptiveHierarchicalLayers]
    rw [hflat, if_pos hcond]
  haveI : IsTotal String (scoreGE e) := ⟨fun a b => le_total _ _⟩
  haveI : IsTrans String (scoreGE e) := ⟨fun a b c h1 h2 => le_trans h2 h1⟩
  have hsort : ((rest.flatMap NodeLayer.nodes).insertionSort (scoreGE e)).Sorted
      (scoreGE e) := List.sorted_insertionSort _ _
  intro LA hLA hALA LB hLB hBLB
  rw [hadapt] at hLA hLB
  rcases List.mem_cons.mp hLA with rfl | hLA'
  · simp only [List.mem_singleton] at hALA
    exact absurd hALA hAs
  rcases List.mem_cons.mp hLB with rfl | hLB'
  · simp only [List.mem_singleton] at hBLB
    exact absurd hBLB hBs
  obtain ⟨iA, hiA, hlvlA⟩ := chunk3Aux_mem_index _ _ 1 le_rfl LA hLA' A hALA
  obtain ⟨iB, hiB, hlvlB⟩ := chunk3Aux_mem_index _ _ 1 le_rfl LB hLB' B hBLB
  obtain ⟨hAlt, hgetA⟩ := List.get?_eq_some.mp hiA
  obtain ⟨hBlt, hgetB⟩ := List.get?_eq_some.mp hiB
  have hAB : A ≠ B := fun h => by rw [h] at hscore; exact lt_irrefl _ hscore
  have hij : iA < iB := by
    rcases lt_trichotomy iA iB with h | h | h
    · exact h
    · exfalso
      apply hAB
      rw [← hgetA, ← hgetB]
      subst h
      rfl
    · exfalso
      have hrel := hsort.rel_get_of_lt (a := ⟨iB, hBlt⟩) (b := ⟨iA, hAlt⟩)
        (Fin.mk_lt_mk.mpr h)
      rw [hgetA, hgetB] at hrel
      exact absurd hrel (not_le.mpr hscore)
  rw [hlvlA, hlvlB]
  have hdiv : iA / 3 ≤ iB / 3 := Nat.div_le_div_right (le_of_lt hij)
  omega

/-- C8 (witness): on `a→b, a→c` with `b` scored insightful (+2) and `c`
scored familiar (−2), adaptive mode puts both in layer 1, and `b`'s layer
index is indeed ≤ `c`'s. -/
theorem c8_witness :
    getExplorationScore "c"
        (fun k => if k = "b" then some ⟨0, 1, 0, 0⟩
          else if k = "c" then some ⟨0, 0, 0, 1⟩ else none) <
      getExplorationScore "b"
        (fun k => if k = "b" then some ⟨0, 1, 0, 0⟩
          else if k = "c" then some ⟨0, 0, 0, 1⟩ else none) ∧
    NodeLayer.level ⟨1, ["b", "c"]⟩ ≤ NodeLayer.level ⟨1, ["b", "c"]⟩ := by
  have hb : getExplorationScore "b"
      (fun k => if k = "b" then some ⟨0, 1, 0, 0⟩
        else if k = "c" then some ⟨0, 0, 0, 1⟩ else none) = 2 := by
    simp [getExplorationScore]
  have hc : getExplorationScore "c"
      (fun k => if k = "b" then some ⟨0, 1, 0, 0⟩
        else if k = "c" then some ⟨0, 0, 0, 1⟩ else none) = -2 := by
    simp [getExplorationScore]
  have hsc : getExplorationScore "c"
      (fun k => if k = "b" then some ⟨0, 1, 0, 0⟩
        else if k = "c" then some ⟨0, 0, 0, 1⟩ else none) <
      getExplorationScore "b"
      (fun k => if k = "b" then some ⟨0, 1, 0, 0⟩
        else if k = "c" then some ⟨0, 0, 0, 1⟩ else none) := by
    rw [hb, hc]; norm_num
  have hr : scoreGE (fun k => if k = "b" then some ⟨0, 1, 0, 0⟩
      else if k = "c" then some ⟨0, 0, 0, 1⟩ else none) "b" "c" := by
    rw [scoreGE, hb, hc]; norm_num
  have hsorted : (["b", "c"] : List String).insertionSort
      (scoreGE (fun k => if k = "b" then some ⟨0, 1, 0, 0⟩
        else if k = "c" then some ⟨0, 0, 0, 1⟩ else none)) = ["b", "c"] := by
    simp only [List.insertionSort, List.orderedInsert]
    rw [if_pos hr]
  have hflat : (normalBFSLayers "a" [⟨"a","b"⟩, ⟨"a","c"⟩]).flatMap NodeLayer.nodes =
      ["a", "b", "c"] := by rfl
  have hadapt : getAdaptiveHierarchicalLayers "a" [⟨"a","b"⟩, ⟨"a","c"⟩]
      (fun k => if k = "b" then some ⟨0, 1, 0, 0⟩
        else if k = "c" then some ⟨0, 0, 0, 1⟩ else none) true =
      [⟨0, ["a"]⟩, ⟨1, ["b", "c"]⟩] := by
    simp only [getAdaptiveHierarchicalLayers, hflat]
    rw [if_pos (by decide)]
    show (⟨0, ["a"]⟩ : NodeLayer) :: chunk3 ((["b", "c"] : List String).insertionSort
      (scoreGE (fun k => if k = "b" then some ⟨0, 1, 0, 0⟩
        else if k = "c" then some ⟨0, 0, 0, 1⟩ else none))) 1 = _
    rw [hsorted]
    rfl
  refine ⟨hsc, ?_⟩
  refine c8_theorem "a" "b" "c" [⟨"a","b"⟩, ⟨"a","c"⟩]
    (fun k => if k = "b" then some ⟨0, 1, 0, 0⟩
      else if k = "c" then some ⟨0, 0, 0, 1⟩ else none)
    (Relation.ReflTransGen.single ⟨⟨"a","b"⟩, by decide, rfl, rfl⟩)
    (Relation.ReflTransGen.single ⟨⟨"a","c"⟩, by decide, rfl, rfl⟩)
    (by decide) (by decide) (by decide) (by decide) hsc
    ⟨1, ["b", "c"]⟩ ?_ (by decide) ⟨1, ["b", "c"]⟩ ?_ (by decide)
  · rw [hadapt]; decide
  · rw [hadapt]; decide

/-! ## Flat BFS (`bfsPath`) -/

/-- Splitting the unvisited-source link count when one fresh node is
marked visited. -/
theorem countP_source_split (links : List RawLink) (current : String)
    (visited : List String) (h : ¬ current ∈ visited) :
    links.countP (fun l => decide (¬ l.source ∈ visited)) =
      links.countP (fun l => decide (¬ l.source ∈ current :: visited)) +
      links.countP (fun l => decide (l.source = current)) := by
  induction links with
  | nil => rfl
  | cons l t ih =>
    by_cases hs : l.source = current
    · rw [List.countP_cons_of_pos (fun l => decide (¬ l.source ∈ visited)) t
        (show decide (¬ l.source ∈ visited) = true by
          rw [decide_eq_true_iff, hs]; exact h)]
      rw [List.countP_cons_of_neg (fun l => decide (¬ l.source ∈ current :: visited)) t
        (show ¬ decide (¬ l.source ∈ current :: visited) = true by
          rw [decide_eq_true_iff, not_not, hs]; exact List.mem_cons_self _ _)]
      rw [List.countP_cons_of_pos (fun l => decide (l.source = current)) t
        (show decide (l.source = current) = true by
          rw [decide_eq_true_iff]; exact hs)]
      omega
    · rw [List.countP_cons_of_neg (fun l => decide (l.source = current)) t
        (show ¬ decide (l.source = current) = true by
          rw [decide_eq_true_iff]; exact hs)]
      by_cases hv : l.source ∈ visited
      · rw [List.countP_cons_of_neg (fun l => decide (¬ l.source ∈ visited)) t
          (show ¬ decide (¬ l.source ∈ visited) = true by
            rw [decide_eq_true_iff, not_not]; exact hv)]
        rw [List.countP_cons_of_neg (fun l => decide (¬ l.source ∈ current :: visited)) t
          (show ¬ decide (¬ l.source ∈ current :: visited) = true by
            rw [decide_eq_true_iff, not_not]; exact List.mem_cons_of_mem _ hv)]
        omega
      · rw [List.countP_cons_of_pos (fun l => decide (¬ l.source ∈ visited)) t
          (show decide (¬ l.source ∈ visited) = true by
            rw [decide_eq_true_iff]; exact hv)]
        rw [List.countP_cons_of_pos (fun l => decide (¬ l.source ∈ current :: visited)) t
          (show decide (¬ l.source ∈ current :: visited) = true by
            rw [decide_eq_true_iff]
            intro hmem
            rcases List.mem_cons.mp hmem with h1 | h1
            · exact hs h1
            · exact hv h1)]
        omega

/-- The fuel of `bfsPathAux` never runs out while the queue length plus
the number of links with unvisited source is below it. -/
theorem bfsPathAux_isSome (links : List RawLink) :
    ∀ (fuel : Nat) (visited queue : List String),
      queue.length + links.countP (fun l => decide (¬ l.source ∈ visited)) < fuel →
      (bfsPathAux links fuel visited queue).isSome = true := by
  intro fuel
  induction fuel with
  | zero => intro _ _ hm; omega
  | succ n ih =>
    intro visited queue hm
    match queue, hm with
    | [], _ => rw [bfsPathAux]; rfl
    | current :: rest, hm =>
      rw [bfsPathAux]
      by_cases hcv : current ∈ visited
      · rw [if_pos hcv]
        apply ih
        have : (current :: rest).length = rest.length + 1 := List.length_cons _ _
        omega
      · rw [if_neg hcv]
        simp only [Option.isSome_map']
        apply ih
        have hsplit := countP_source_split links current visited hcv
        have hpush : ((successors links current).filter
            (fun x => ¬ x ∈ current :: visited)).length ≤
            links.countP (fun l => decide (l.source = current)) := by
          calc ((successors links current).filter
              (fun x => ¬ x ∈ current :: visited)).length
              ≤ (successors links current).length := List.length_filter_le _ _
            _ = links.countP (fun l => decide (l.source = current)) := by
              rw [successors, List.length_map, List.countP_eq_length_filter]
        have hqlen : (rest ++ (successors links current).filter
            (fun x => ¬ x ∈ current :: visited)).length =
            rest.length + ((successors links current).filter
            (fun x => ¬ x ∈ current :: visited)).length := List.length_append _ _
        have hclen : (current :: rest).length = rest.length + 1 := List.length_cons _ _
        omega

/-- Queue exhaustion: every queued node ends visited or on the path, the
path is closed under successors up to the visited set, path nodes are
fresh, and the path has no duplicates. -/
theorem bfsPathAux_spec (links : List RawLink) :
    ∀ (fuel : Nat) (visited queue path : List String),
      bfsPathAux links fuel visited queue = some path →
      (∀ x ∈ queue, x ∈ visited ∨ x ∈ path) ∧
      (∀ y ∈ path, ∀ z ∈ successors links y, z ∈ visited ∨ z ∈ path) ∧
      (∀ x ∈ path, ¬ x ∈ visited) ∧
      path.Nodup := by
  intro fuel
  induction fuel with
  | zero => intro _ _ _ h; cases h
  | succ n ih =>
    intro visited queue path h
    match queue, h with
    | [], h =>
      rw [bfsPathAux] at h
      obtain rfl : ([] : List String) = path := by simpa using h
      refine ⟨fun x hx => ?_, fun y hy => ?_, fun x hx => ?_, List.Pairwise.nil⟩
      · cases hx
      · cases hy
      · cases hx
    | current :: rest, h =>
      rw [bfsPathAux] at h
      by_cases hcv : current ∈ visited
      · rw [if_pos hcv] at h
        obtain ⟨h1, h2, h3, h4⟩ := ih _ _ _ h
        refine ⟨?_, h2, h3, h4⟩
        intro x hx
        rcases List.mem_cons.mp hx with rfl | hx
        · exact Or.inl hcv
        · exact h1 x hx
      · rw [if_neg hcv] at h
        rw [Option.map_eq_some'] at h
        obtain ⟨p, hrec, hpath⟩ := h
        subst hpath
        obtain ⟨h1, h2, h3, h4⟩ := ih _ _ _ hrec
        have hdispatch : ∀ z : String, z ∈ current :: visited ∨ z ∈ p →
            z ∈ visited ∨ z ∈ current :: p := by
          intro z hz
          rcases hz with hz | hz
          · rcases List.mem_cons.mp hz with rfl | hz
            · exact Or.inr (List.mem_cons_self _ _)
            · exact Or.inl hz
          · exact Or.inr (List.mem_cons_of_mem _ hz)
        refine ⟨?_, ?_, ?_, ?_⟩
        · intro x hx
          rcases List.mem_cons.mp hx with rfl | hx
          · exact Or.inr (List.mem_cons_self _ _)
          · exact hdispatch x (h1 x (List.mem_append_left _ hx))
        · intro y hy z hz
          rcases List.mem_cons.mp hy with rfl | hy
          · by_cases hzv : z ∈ y :: visited
            · exact hdispatch z (Or.inl hzv)
            · apply hdispatch z
              apply h1
              apply List.mem_append_right
              simp only [List.mem_filter]
              exact ⟨hz, by simpa using hzv⟩
          · exact hdispatch z (h2 y hy z hz)
        · intro x hx
          rcases List.mem_cons.mp hx with rfl | hx
          · exact hcv
          · intro hxv
            exact h3 x hx (List.mem_cons_of_mem _ hxv)
        · refine List.Pairwise.cons ?_ h4
          intro x hx heq
          exact h3 x hx (heq ▸ List.mem_cons_self _ _)

/-- Path nodes are reachable whenever the queued nodes are. -/
theorem bfsPathAux_reach (links : List RawLink) (s : String) :
    ∀ (fuel : Nat) (visited queue path : List String),
      (∀ x ∈ queue, Reach links s x) →
      bfsPathAux links fuel visited queue = some path →
      ∀ x ∈ path, Reach links s x := by
  intro fuel
  induction fuel with
  | zero => intro _ _ _ _ h; cases h
  | succ n ih =>
    intro visited queue path hreach h
    match queue, h with
    | [], h =>
      rw [bfsPathAux] at h
      obtain rfl : ([] : List String) = path := by simpa using h
      intro x hx; cases hx
    | current :: rest, h =>
      rw [bfsPathAux] at h
      by_cases hcv : current ∈ visited
      · rw [if_pos hcv] at h
        exact ih _ _ _ (fun x hx => hreach x (List.mem_cons_of_mem _ hx)) h
      · rw [if_neg hcv] at h
        rw [Option.map_eq_some'] at h
        obtain ⟨p, hrec, hpath⟩ := h
        subst hpath
        have hreach' : ∀ x ∈ rest ++ (successors links current).filter
            (fun x => ¬ x ∈ current :: visited), Reach links s x := by
          intro x hx
          rcases List.mem_append.mp hx with hx | hx
          · exact hreach x (List.mem_cons_of_mem _ hx)
          · have hxs : x ∈ successors links current := List.mem_of_mem_filter hx
            exact Relation.ReflTransGen.tail
              (hreach current (List.mem_cons_self _ _))
              (linkRel_of_mem_successors hxs)
        intro x hx
        rcases List.mem_cons.mp hx with rfl | hx
        · exact hreach x (List.mem_cons_self _ _)
        · exact ih _ _ _ hreach' hrec x hx

/-- The top-level `bfsPath` call always returns within its fuel, with the
start node first. -/
theorem bfsPath_some (startId : String) (links : List RawLink) :
    ∃ p, bfsPathAux links (links.length + 2) [] [startId] = some (startId :: p) ∧
      bfsPath startId links = startId :: p := by
  have hsome : (bfsPathAux links (links.length + 1) [startId]
      ([] ++ (successors links startId).filter
        (fun x => ¬ x ∈ [startId]))).isSome = true := by
    apply bfsPathAux_isSome
    have hsplit := countP_source_split links startId [] (by simp)
    have hpush : ((successors links startId).filter
        (fun x => ¬ x ∈ [startId])).length ≤
        links.countP (fun l => decide (l.source = startId)) := by
      calc ((successors links startId).filter (fun x => ¬ x ∈ [startId])).length
          ≤ (successors links startId).length := List.length_filter_le _ _
        _ = links.countP (fun l => decide (l.source = startId)) := by
          rw [successors, List.length_map, List.countP_eq_length_filter]
    have hlen : ([] ++ (successors links startId).filter
        (fun x => ¬ x ∈ [startId])).length =
        ((successors links startId).filter (fun x => ¬ x ∈ [startId])).length := by
      rw [List.nil_append]
    have hcall : links.countP (fun l => decide (¬ l.source ∈ ([] : List String))) ≤
        links.length := List.countP_le_length _
    omega
  obtain ⟨p, hp⟩ := Option.isSome_iff_exists.mp hsome
  have hstep : bfsPathAux links (links.length + 2) [] [startId] =
      Option.map (fun q => startId :: q)
        (bfsPathAux links (links.length + 1) [startId]
          ([] ++ (successors links startId).filter (fun x => ¬ x ∈ [startId]))) := by
    rfl
  refine ⟨p, ?_, ?_⟩
  · rw [hstep, hp]
    rfl
  · rw [bfsPath, hstep, hp]
    rfl

/-- C9.  For every start node and link list, the flat BFS `bfsPath`
starts with the start node, contains no duplicate ids, and contains
exactly the nodes reachable from the start along directed links. -/
theorem c9_theorem (startId : String) (links : List RawLink) :
    (bfsPath startId links).head? = some startId ∧
    (bfsPath startId links).Nodup ∧
    ∀ x, x ∈ bfsPath startId links ↔ Reach links startId x := by
  obtain ⟨p, hsome, heq⟩ := bfsPath_some startId links
  obtain ⟨h1, h2, h3, h4⟩ := bfsPathAux_spec links _ _ _ _ hsome
  refine ⟨by rw [heq]; rfl, by rw [heq]; exact h4, ?_⟩
  intro x
  rw [heq]
  constructor
  · intro hx
    refine bfsPathAux_reach links startId _ _ _ _ ?_ hsome x hx
    intro z hz
    simp only [List.mem_singleton] at hz
    subst hz
    exact Relation.ReflTransGen.refl
  · intro hreach
    have hstart : startId ∈ startId :: p := List.mem_cons_self _ _
    induction hreach with
    | refl => exact hstart
    | tail hab hbc ih =>
      rcases h2 _ ih _ (mem_successors_of_linkRel hbc) with h | h
      · cases h
      · exact h

/-! ## Randomized edge generation -/

/-- Appending one edge bumps the out-degree of exactly its source. -/
theorem outDeg_append (l : List Edge) (e : Edge) (id : String) :
    outDeg (l ++ [e]) id = outDeg l id + (if e.source = id then 1 else 0) := by
  unfold outDeg
  rw [List.filter_append, List.length_append]
  congr 1
  by_cases h : e.source = id
  · rw [if_pos h]
    simp [h]
  · rw [if_neg h]
    simp [h]

/-- Appending one edge bumps the in-degree of exactly its target. -/
theorem inDeg_append (l : List Edge) (e : Edge) (id : String) :
    inDeg (l ++ [e]) id = inDeg l id + (if e.target = id then 1 else 0) := by
  unfold inDeg
  rw [List.filter_append, List.length_append]
  congr 1
  by_cases h : e.target = id
  · rw [if_pos h]
    simp [h]
  · rw [if_neg h]
    simp [h]

/-- `tryAdd` never decreases a count and never drops a used pair key. -/
theorem tryAdd_mono (st : RandState) (s t : String) :
    (∀ id, st.outgoingCount id ≤ (tryAdd st s t).outgoingCount id) ∧
    (∀ id, st.incomingCount id ≤ (tryAdd st s t).incomingCount id) ∧
    (∀ k ∈ st.usedPairs, k ∈ (tryAdd st s t).usedPairs) := by
  by_cases hc : s ≠ t ∧ ¬ pairKey s t ∈ st.usedPairs
  · rw [tryAdd, if_pos hc]
    refine ⟨fun id => ?_, fun id => ?_, fun k hk => List.mem_append_left _ hk⟩
    · show st.outgoingCount id ≤
        if id = s then st.outgoingCount s + 1 else st.outgoingCount id
      by_cases hid : id = s
      · subst hid; rw [if_pos rfl]; omega
      · rw [if_neg hid]
    · show st.incomingCount id ≤
        if id = t then st.incomingCount t + 1 else st.incomingCount id
      by_cases hid : id = t
      · subst hid; rw [if_pos rfl]; omega
      · rw [if_neg hid]
  · rw [tryAdd, if_neg hc]
    exact ⟨fun id => le_refl _, fun id => le_refl _, fun k hk => hk⟩

/-- `tryAdd` preserves the full state invariant: counts equal list
degrees, no self-loops, every recorded edge's key is used, and no pair of
recorded edges coincides. -/
theorem tryAdd_wf (st : RandState) (s t : String)
    (hout : ∀ id, st.outgoingCount id = outDeg st.newLinks id)
    (hin : ∀ id, st.incomingCount id = inDeg st.newLinks id)
    (hself : ∀ e ∈ st.newLinks, e.source ≠ e.target)
    (hkeys : ∀ e ∈ st.newLinks, pairKey e.source e.target ∈ st.usedPairs)
    (hpw : st.newLinks.Pairwise
      (fun a b => ¬ (a.source = b.source ∧ a.target = b.target))) :
    (∀ id, (tryAdd st s t).outgoingCount id = outDeg (tryAdd st s t).newLinks id) ∧
    (∀ id, (tryAdd st s t).incomingCount id = inDeg (tryAdd st s t).newLinks id) ∧
    (∀ e ∈ (tryAdd st s t).newLinks, e.source ≠ e.target) ∧
    (∀ e ∈ (tryAdd st s t).newLinks,
      pairKey e.source e.target ∈ (tryAdd st s t).usedPairs) ∧
    (tryAdd st s t).newLinks.Pairwise
      (fun a b => ¬ (a.source = b.source ∧ a.target = b.target)) := by
  by_cases hc : s ≠ t ∧ ¬ pairKey s t ∈ st.usedPairs
  · rw [tryAdd, if_pos hc]
    obtain ⟨hst, hkey⟩ := hc
    refine ⟨fun id => ?_, fun id => ?_, ?_, ?_, ?_⟩
    · show (if id = s then st.outgoingCount s + 1 else st.outgoingCount id) =
        outDeg (st.newLinks ++ [⟨s, t⟩]) id
      rw [outDeg_append]
      by_cases hid : id = s
      · subst hid
        rw [if_pos rfl, if_pos rfl, hout]
      · rw [if_neg hid, if_neg (fun h => hid h.symm), hout]
        omega
    · show (if id = t then st.incomingCount t + 1 else st.incomingCount id) =
        inDeg (st.newLinks ++ [⟨s, t⟩]) id
      rw [inDeg_append]
      by_cases hid : id = t
      · subst hid
        rw [if_pos rfl, if_pos rfl, hin]
      · rw [if_neg hid, if_neg (fun h => hid h.symm), hin]
        omega
    · intro e he
      rcases List.mem_append.mp he with he | he
      · exact hself e he
      · obtain rfl : e = ⟨s, t⟩ := List.mem_singleton.mp he
        exact hst
    · intro e he
      rcases List.mem_append.mp he with he | he
      · exact List.mem_append_left _ (hkeys e he)
      · obtain rfl : e = ⟨s, t⟩ := List.mem_singleton.mp he
        exact List.mem_append_right _ (List.mem_singleton_self _)
    · rw [List.pairwise_append]
      refine ⟨hpw, List.pairwise_singleton _ _, ?_⟩
      intro a ha b hb
      obtain rfl : b = ⟨s, t⟩ := List.mem_singleton.mp hb
      intro ⟨h1, h2⟩
      apply hkey
      have : pairKey a.source a.target ∈ st.usedPairs := hkeys a ha
      rw [h1, h2] at this
      exact this
  · rw [tryAdd, if_neg hc]
    exact ⟨hout, hin, hself, hkeys, hpw⟩

/-- The first-pass inner loop: when it exits, the source's out-degree
count has reached 3, counts never decreased, and the state invariant is
preserved. -/
theorem drawLoopOut_spec (nodeIds : List String) (rand : Nat → Nat) (src : String) :
    ∀ (fuel : Nat) (st st' : RandState),
      drawLoopOut nodeIds rand src fuel st = some st' →
      (∀ id, st.outgoingCount id ≤ st'.outgoingCount id) ∧
      (∀ id, st.incomingCount id ≤ st'.incomingCount id) ∧
      3 ≤ st'.outgoingCount src ∧
      ((∀ id, st.outgoingCount id = outDeg st.newLinks id) →
       (∀ id, st.incomingCount id = inDeg st.newLinks id) →
       (∀ e ∈ st.newLinks, e.source ≠ e.target) →
       (∀ e ∈ st.newLinks, pairKey e.source e.target ∈ st.usedPairs) →
       st.newLinks.Pairwise (fun a b => ¬ (a.source = b.source ∧ a.target = b.target)) →
       (∀ id, st'.outgoingCount id = outDeg st'.newLinks id) ∧
       (∀ id, st'.incomingCount id = inDeg st'.newLinks id) ∧
       (∀ e ∈ st'.newLinks, e.source ≠ e.target) ∧
       (∀ e ∈ st'.newLinks, pairKey e.source e.target ∈ st'.usedPairs) ∧
       st'.newLinks.Pairwise
         (fun a b => ¬ (a.source = b.source ∧ a.target = b.target))) := by
  intro fuel
  induction fuel with
  | zero => intro st st' h; cases h
  | succ n ih =>
    intro st st' h
    rw [drawLoopOut] at h
    by_cases hlt : st.outgoingCount src < 3
    · rw [if_pos hlt] at h
      obtain ⟨m1, m2, m3, m4⟩ := ih _ _ h
      have tm := tryAdd_mono { st with ctr := st.ctr + 1 } src
        (drawNode nodeIds rand st.ctr)
      refine ⟨fun id => le_trans (tm.1 id) (m1 id),
        fun id => le_trans (tm.2.1 id) (m2 id), m3, ?_⟩
      intro hout hin hself hkeys hpw
      have tw := tryAdd_wf { st with ctr := st.ctr + 1 } src
        (drawNode nodeIds rand st.ctr) hout hin hself hkeys hpw
      exact m4 tw.1 tw.2.1 tw.2.2.1 tw.2.2.2.1 tw.2.2.2.2
    · rw [if_neg hlt] at h
      obtain rfl : st = st' := by simpa using h
      refine ⟨fun id => le_refl _, fun id => le_refl _, by omega, ?_⟩
      intro hout hin hself hkeys hpw
      exact ⟨hout, hin, hself, hkeys, hpw⟩

/-- First pass over all sources: every processed node ends with out-count
at least 3; counts never decrease; the invariant is preserved. -/
theorem pass1_spec (nodeIds : List String) (rand : Nat → Nat) :
    ∀ (pending : List String) (fuel : Nat) (st st' : RandState),
      pass1 nodeIds rand pending fuel st = some st' →
      (∀ id, st.outgoingCount id ≤ st'.outgoingCount id) ∧
      (∀ id, st.incomingCount id ≤ st'.incomingCount id) ∧
      (∀ id ∈ pending, 3 ≤ st'.outgoingCount id) ∧
      ((∀ id, st.outgoingCount id = outDeg st.newLinks id) →
       (∀ id, st.incomingCount id = inDeg st.newLinks id) →
       (∀ e ∈ st.newLinks, e.source ≠ e.target) →
       (∀ e ∈ st.newLinks, pairKey e.source e.target ∈ st.usedPairs) →
       st.newLinks.Pairwise (fun a b => ¬ (a.source = b.source ∧ a.target = b.target)) →
       (∀ id, st'.outgoingCount id = outDeg st'.newLinks id) ∧
       (∀ id, st'.incomingCount id = inDeg st'.newLinks id) ∧
       (∀ e ∈ st'.newLinks, e.source ≠ e.target) ∧
       (∀ e ∈ st'.newLinks, pairKey e.source e.target ∈ st'.usedPairs) ∧
       st'.newLinks.Pairwise
         (fun a b => ¬ (a.source = b.source ∧ a.target = b.target))) := by
  intro pending
  induction pending with
  | nil =>
    intro fuel st st' h
    obtain rfl : st = st' := by rw [pass1] at h; simpa using h
    refine ⟨fun id => le_refl _, fun id => le_refl _, fun id hid => ?_, ?_⟩
    · cases hid
    · intro hout hin hself hkeys hpw
      exact ⟨hout, hin, hself, hkeys, hpw⟩
  | cons src restIds ih =>
    intro fuel st st' h
    rw [pass1] at h
    cases hdraw : drawLoopOut nodeIds rand src fuel st with
    | none => rw [hdraw] at h; cases h
    | some st1 =>
      rw [hdraw] at h
      obtain ⟨d1, d2, d3, d4⟩ := drawLoopOut_spec nodeIds rand src fuel st st1 hdraw
      obtain ⟨p1, p2, p3, p4⟩ := ih fuel st1 st' h
      refine ⟨fun id => le_trans (d1 id) (p1 id),
        fun id => le_trans (d2 id) (p2 id), ?_, ?_⟩
      · intro id hid
        rcases List.mem_cons.mp hid with rfl | hid
        · exact le_trans d3 (p1 id)
        · exact p3 id hid
      · intro hout hin hself hkeys hpw
        have w1 := d4 hout hin hself hkeys hpw
        exact p4 w1.1 w1.2.1 w1.2.2.1 w1.2.2.2.1 w1.2.2.2.2

/-- The second-pass inner loop: mirror of `drawLoopOut_spec` for
in-degrees. -/
theorem drawLoopIn_spec (nodeIds : List String) (rand : Nat → Nat) (tgt : String) :
    ∀ (fuel : Nat) (st st' : RandState),
      drawLoopIn nodeIds rand tgt fuel st = some st' →
      (∀ id, st.outgoingCount id ≤ st'.outgoingCount id) ∧
      (∀ id, st.incomingCount id ≤ st'.incomingCount id) ∧
      3 ≤ st'.incomingCount tgt ∧
      ((∀ id, st.outgoingCount id = outDeg st.newLinks id) →
       (∀ id, st.incomingCount id = inDeg st.newLinks id) →
       (∀ e ∈ st.newLinks, e.source ≠ e.target) →
       (∀ e ∈ st.newLinks, pairKey e.source e.target ∈ st.usedPairs) →
       st.newLinks.Pairwise (fun a b => ¬ (a.source = b.source ∧ a.target = b.target)) →
       (∀ id, st'.outgoingCount id = outDeg st'.newLinks id) ∧
       (∀ id, st'.incomingCount id = inDeg st'.newLinks id) ∧
       (∀ e ∈ st'.newLinks, e.source ≠ e.target) ∧
       (∀ e ∈ st'.newLinks, pairKey e.source e.target ∈ st'.usedPairs) ∧
       st'.newLinks.Pairwise
         (fun a b => ¬ (a.source = b.source ∧ a.target = b.target))) := by
  intro fuel
  induction fuel with
  | zero => intro st st' h; cases h
  | succ n ih =>
    intro st st' h
    rw [drawLoopIn] at h
    by_cases hlt : st.incomingCount tgt < 3
    · rw [if_pos hlt] at h
      obtain ⟨m1, m2, m3, m4⟩ := ih _ _ h
      have tm := tryAdd_mono { st with ctr := st.ctr + 1 }
        (drawNode nodeIds rand st.ctr) tgt
      refine ⟨fun id => le_trans (tm.1 id) (m1 id),
        fun id => le_trans (tm.2.1 id) (m2 id), m3, ?_⟩
      intro hout hin hself hkeys hpw
      have tw := tryAdd_wf { st with ctr := st.ctr + 1 }
        (drawNode nodeIds rand st.ctr) tgt hout hin hself hkeys hpw
      exact m4 tw.1 tw.2.1 tw.2.2.1 tw.2.2.2.1 tw.2.2.2.2
    · rw [if_neg hlt] at h
      obtain rfl : st = st' := by simpa using h
      refine ⟨fun id => le_refl _, fun id => le_refl _, by omega, ?_⟩
      intro hout hin hself hkeys hpw
      exact ⟨hout, hin, hself, hkeys, hpw⟩

/-- Second pass over all targets: mirror of `pass1_spec`. -/
theorem pass2_spec (nodeIds : List String) (rand : Nat → Nat) :
    ∀ (pending : List String) (fuel : Nat) (st st' : RandState),
      pass2 nodeIds rand pending fuel st = some st' →
      (∀ id, st.outgoingCount id ≤ st'.outgoingCount id) ∧
      (∀ id, st.incomingCount id ≤ st'.incomingCount id) ∧
      (∀ id ∈ pending, 3 ≤ st'.incomingCount id) ∧
      ((∀ id, st.outgoingCount id = outDeg st.newLinks id) →
       (∀ id, st.incomingCount id = inDeg st.newLinks id) →
       (∀ e ∈ st.newLinks, e.source ≠ e.target) →
       (∀ e ∈ st.newLinks, pairKey e.source e.target ∈ st.usedPairs) →
       st.newLinks.Pairwise (fun a b => ¬ (a.source = b.source ∧ a.target = b.target)) →
       (∀ id, st'.outgoingCount id = outDeg st'.newLinks id) ∧
       (∀ id, st'.incomingCount id = inDeg st'.newLinks id) ∧
       (∀ e ∈ st'.newLinks, e.source ≠ e.target) ∧
       (∀ e ∈ st'.newLinks, pairKey e.source e.target ∈ st'.usedPairs) ∧
       st'.newLinks.Pairwise
         (fun a b => ¬ (a.source = b.source ∧ a.target = b.target))) := by
  intro pending
  induction pending with
  | nil =>
    intro fuel st st' h
    obtain rfl : st = st' := by rw [pass2] at h; simpa using h
    refine ⟨fun id => le_refl _, fun id => le_refl _, fun id hid => ?_, ?_⟩
    · cases hid
    · intro hout hin hself hkeys hpw
      exact ⟨hout, hin, hself, hkeys, hpw⟩
  | cons tgt restIds ih =>
    intro fuel st st' h
    rw [pass2] at h
    cases hdraw : drawLoopIn nodeIds rand tgt fuel st with
    | none => rw [hdraw] at h; cases h
    | some st1 =>
      rw [hdraw] at h
      obtain ⟨d1, d2, d3, d4⟩ := drawLoopIn_spec nodeIds rand tgt fuel st st1 hdraw
      obtain ⟨p1, p2, p3, p4⟩ := ih fuel st1 st' h
      refine ⟨fun id => le_trans (d1 id) (p1 id),
        fun id => le_trans (d2 id) (p2 id), ?_, ?_⟩
      · intro id hid
        rcases List.mem_cons.mp hid with rfl | hid
        · exact le_trans d3 (p2 id)
        · exact p3 id hid
      · intro hout hin hself hkeys hpw
        have w1 := d4 hout hin hself hkeys hpw
        exact p4 w1.1 w1.2.1 w1.2.2.1 w1.2.2.2.1 w1.2.2.2.2

/-- Top-up pass: it is total (capped by the remaining-attempts argument),
never decreases counts, and preserves the invariant. -/
theorem topUpLoop_spec (nodeIds : List String) (rand : Nat → Nat) (targetCount : Nat) :
    ∀ (remaining : Nat) (st : RandState),
      (∀ id, st.outgoingCount id ≤
        (topUpLoop nodeIds rand targetCount remaining st).outgoingCount id) ∧
      (∀ id, st.incomingCount id ≤
        (topUpLoop nodeIds rand targetCount remaining st).incomingCount id) ∧
      ((∀ id, st.outgoingCount id = outDeg st.newLinks id) →
       (∀ id, st.incomingCount id = inDeg st.newLinks id) →
       (∀ e ∈ st.newLinks, e.source ≠ e.target) →
       (∀ e ∈ st.newLinks, pairKey e.source e.target ∈ st.usedPairs) →
       st.newLinks.Pairwise (fun a b => ¬ (a.source = b.source ∧ a.target = b.target)) →
       (∀ id, (topUpLoop nodeIds rand targetCount remaining st).outgoingCount id =
         outDeg (topUpLoop nodeIds rand targetCount remaining st).newLinks id) ∧
       (∀ id, (topUpLoop nodeIds rand targetCount remaining st).incomingCount id =
         inDeg (topUpLoop nodeIds rand targetCount remaining st).newLinks id) ∧
       (∀ e ∈ (topUpLoop nodeIds rand targetCount remaining st).newLinks,
         e.source ≠ e.target) ∧
       (∀ e ∈ (topUpLoop nodeIds rand targetCount remaining st).newLinks,
         pairKey e.source e.target ∈
           (topUpLoop nodeIds rand targetCount remaining st).usedPairs) ∧
       (topUpLoop nodeIds rand targetCount remaining st).newLinks.Pairwise
         (fun a b => ¬ (a.source = b.source ∧ a.target = b.target))) := by
  intro remaining
  induction remaining with
  | zero =>
    intro st
    refine ⟨fun id => le_refl _, fun id => le_refl _, ?_⟩
    intro hout hin hself hkeys hpw
    exact ⟨hout, hin, hself, hkeys, hpw⟩
  | succ n ih =>
    intro st
    rw [topUpLoop]
    by_cases hlt : st.newLinks.length < targetCount
    · rw [if_pos hlt]
      obtain ⟨m1, m2, m3⟩ := ih (tryAdd { st with ctr := st.ctr + 2 }
        (drawNode nodeIds rand st.ctr) (drawNode nodeIds rand (st.ctr + 1)))
      have tm := tryAdd_mono { st with ctr := st.ctr + 2 }
        (drawNode nodeIds rand st.ctr) (drawNode nodeIds rand (st.ctr + 1))
      refine ⟨fun id => le_trans (tm.1 id) (m1 id),
        fun id => le_trans (tm.2.1 id) (m2 id), ?_⟩
      intro hout hin hself hkeys hpw
      have tw := tryAdd_wf { st with ctr := st.ctr + 2 }
        (drawNode nodeIds rand st.ctr) (drawNode nodeIds rand (st.ctr + 1))
        hout hin hself hkeys hpw
      exact m3 tw.1 tw.2.1 tw.2.2.1 tw.2.2.2.1 tw.2.2.2.2
    · rw [if_neg hlt]
      refine ⟨fun id => le_refl _, fun id => le_refl _, ?_⟩
      intro hout hin hself hkeys hpw
      exact ⟨hout, hin, hself, hkeys, hpw⟩

/-- On a single-node list the first-pass inner loop never exits: the only
drawable target is the node itself, so no edge is ever added. -/
theorem drawLoopOut_single_none (rand : Nat → Nat) :
    ∀ (fuel : Nat) (st : RandState), st.outgoingCount "a" < 3 →
      drawLoopOut ["a"] rand "a" fuel st = none := by
  intro fuel
  induction fuel with
  | zero => intro st _; rfl
  | succ n ih =>
    intro st hlt
    rw [drawLoopOut, if_pos hlt]
    have hdraw : drawNode ["a"] rand st.ctr = "a" := by
      show (["a"] : List String).getD (rand st.ctr % 1) "" = "a"
      rw [Nat.mod_one]
      rfl
    rw [hdraw]
    have htry : tryAdd { st with ctr := st.ctr + 1 } "a" "a" =
        { st with ctr := st.ctr + 1 } := by
      rw [tryAdd, if_neg]
      intro hc
      exact hc.1 rfl
    show drawLoopOut ["a"] rand "a" n
      (tryAdd { st with ctr := st.ctr + 1 } "a" "a") = none
    rw [htry]
    exact ih { st with ctr := st.ctr + 1 } hlt

/-- C4 (counterexample).  With a single node, `randomizeConnections`
never terminates, no matter how long it runs and whatever the random
stream yields: the first minimum-degree `while` loop (which has NO
attempt cap, unlike the third pass) can never add an edge, since every
draw is a self-loop.  This refutes "terminates for every node-id list
and every sequence of values drawn from the random source". -/
theorem c4_counterexample :
    ¬ ∃ (fuel : Nat) (links : List Edge),
      randomizeConnections ["a"] 5 (fun k => k) fuel = some links := by
  rintro ⟨fuel, links, h⟩
  unfold randomizeConnections at h
  have hp1 : pass1 ["a"] (fun k => k) ["a"] fuel initRandState = none := by
    rw [pass1]
    rw [drawLoopOut_single_none (fun k => k) fuel initRandState (by decide)]
  rw [hp1] at h
  exact Option.noConfusion h

/-- C4 (amended).  The top-up (third) pass is total — it is bounded by
`targetCount * 10` attempts, embodied in `topUpLoop` being a plain
function — so whenever the two UNCAPPED minimum-degree passes finish, the
whole routine returns an edge list (possibly shorter than `targetCount`);
but those two passes themselves can run forever (see the single-node
counterexample), so termination holds only conditionally on them. -/
theorem c4_amended_theorem (nodeIds : List String) (targetCount : Nat)
    (rand : Nat → Nat) (fuel : Nat)
    (h : ((pass1 nodeIds rand nodeIds fuel initRandState).bind
      (fun st1 => pass2 nodeIds rand nodeIds fuel st1)).isSome = true) :
    (randomizeConnections nodeIds targetCount rand fuel).isSome = true := by
  cases h1 : pass1 nodeIds rand nodeIds fuel initRandState with
  | none => rw [h1] at h; simp at h
  | some st1 =>
    rw [h1] at h
    simp only [Option.some_bind] at h
    cases h2 : pass2 nodeIds rand nodeIds fuel st1 with
    | none => rw [h2] at h; simp at h
    | some st2 =>
      unfold randomizeConnections
      rw [h1]
      show (match pass2 nodeIds rand nodeIds fuel st1 with
        | none => none
        | some st2 => some (topUpLoop nodeIds rand targetCount
            (targetCount * 10) st2).newLinks).isSome = true
      rw [h2]
      rfl

/-- C4 (witness): on four nodes with the identity index stream, both
minimum-degree passes finish, so the routine terminates. -/
theorem c4_witness :
    (randomizeConnections ["a", "b", "c", "d"] 12 (fun k => k) 20).isSome = true :=
  c4_amended_theorem ["a", "b", "c", "d"] 12 (fun k => k) 20 (by rfl)

/-- C5.  Every edge list `randomizeConnections` returns (i.e. whenever it
terminates) has no self-loops, no duplicate `(source, target)` pair, and
gives every input node out-degree ≥ 3 and in-degree ≥ 3. -/
theorem c5_theorem (nodeIds : List String) (targetCount : Nat) (rand : Nat → Nat)
    (fuel : Nat) (links : List Edge)
    (h : randomizeConnections nodeIds targetCount rand fuel = some links) :
    (∀ e ∈ links, e.source ≠ e.target) ∧
    links.Pairwise (fun a b => ¬ (a.source = b.source ∧ a.target = b.target)) ∧
    (∀ id ∈ nodeIds, 3 ≤ outDeg links id ∧ 3 ≤ inDeg links id) := by
  unfold randomizeConnections at h
  cases h1 : pass1 nodeIds rand nodeIds fuel initRandState with
  | none => rw [h1] at h; exact Option.noConfusion h
  | some st1 =>
    rw [h1] at h
    replace h : (match pass2 nodeIds rand nodeIds fuel st1 with
      | none => none
      | some st2 => some (topUpLoop nodeIds rand targetCount
          (targetCount * 10) st2).newLinks) = some links := h
    cases h2 : pass2 nodeIds rand nodeIds fuel st1 with
    | none => rw [h2] at h; exact Option.noConfusion h
    | some st2 =>
      rw [h2] at h
      obtain rfl : (topUpLoop nodeIds rand targetCount (targetCount * 10) st2).newLinks
          = links := by simpa using h
      obtain ⟨q1, q2, q3, q4⟩ := pass1_spec nodeIds rand nodeIds fuel initRandState st1 h1
      obtain ⟨r1, r2, r3, r4⟩ := pass2_spec nodeIds rand nodeIds fuel st1 st2 h2
      obtain ⟨t1, t2, t3⟩ := topUpLoop_spec nodeIds rand targetCount (targetCount * 10) st2
      have w1 := q4 (fun id => rfl) (fun id => rfl)
        (fun e he => absurd he (List.not_mem_nil e))
        (fun e he => absurd he (List.not_mem_nil e)) List.Pairwise.nil
      have w2 := r4 w1.1 w1.2.1 w1.2.2.1 w1.2.2.2.1 w1.2.2.2.2
      have w3 := t3 w2.1 w2.2.1 w2.2.2.1 w2.2.2.2.1 w2.2.2.2.2
      refine ⟨w3.2.2.1, w3.2.2.2.2, ?_⟩
      intro id hid
      constructor
      · rw [← w3.1 id]
        calc 3 ≤ st1.outgoingCount id := q3 id hid
          _ ≤ st2.outgoingCount id := r1 id
          _ ≤ (topUpLoop nodeIds rand targetCount (targetCount * 10)
              st2).outgoingCount id := t1 id
      · rw [← w3.2.1 id]
        calc 3 ≤ st2.incomingCount id := r3 id hid
          _ ≤ (topUpLoop nodeIds rand targetCount (targetCount * 10)
              st2).incomingCount id := t2 id

/-- C5 (witness): the four-node run returns the full 12-edge tournament;
degree bounds hold and the self-loop `a→a` is absent. -/
theorem c5_witness :
    3 ≤ outDeg [⟨"a","b"⟩, ⟨"a","c"⟩, ⟨"a","d"⟩, ⟨"b","a"⟩, ⟨"b","c"⟩, ⟨"b","d"⟩,
      ⟨"c","a"⟩, ⟨"c","b"⟩, ⟨"c","d"⟩, ⟨"d","a"⟩, ⟨"d","b"⟩, ⟨"d","c"⟩] "a" ∧
    3 ≤ inDeg [⟨"a","b"⟩, ⟨"a","c"⟩, ⟨"a","d"⟩, ⟨"b","a"⟩, ⟨"b","c"⟩, ⟨"b","d"⟩,
      ⟨"c","a"⟩, ⟨"c","b"⟩, ⟨"c","d"⟩, ⟨"d","a"⟩, ⟨"d","b"⟩, ⟨"d","c"⟩] "d" ∧
    ¬ (⟨"a","a"⟩ : Edge) ∈ [⟨"a","b"⟩, ⟨"a","c"⟩, ⟨"a","d"⟩, ⟨"b","a"⟩, ⟨"b","c"⟩,
      ⟨"b","d"⟩, ⟨"c","a"⟩, ⟨"c","b"⟩, ⟨"c","d"⟩, ⟨"d","a"⟩, ⟨"d","b"⟩, ⟨"d","c"⟩] := by
  have h := c5_theorem ["a", "b", "c", "d"] 12 (fun k => k) 20
    [⟨"a","b"⟩, ⟨"a","c"⟩, ⟨"a","d"⟩, ⟨"b","a"⟩, ⟨"b","c"⟩, ⟨"b","d"⟩,
      ⟨"c","a"⟩, ⟨"c","b"⟩, ⟨"c","d"⟩, ⟨"d","a"⟩, ⟨"d","b"⟩, ⟨"d","c"⟩] (by rfl)
  exact ⟨(h.2.2 "a" (by decide)).1, (h.2.2 "d" (by decide)).2,
    fun hmem => (h.1 _ hmem) rfl⟩

/-! ## Force-directed layout -/

/-- C6.  `forceDirectedLayout` with `randomize = false` consults the
random stream nowhere — neither at initialization nor for jitter — so two
runs with different random streams (and the same everything else) return
identical position maps.  The proof is definitional: with the flag off,
every use of the stream sits in a dead branch. -/
theorem c6_theorem (mf : MathFns) (nodes : List RawNode) (links : List RawLink)
    (rand1 rand2 : Nat → ℚ) :
    forceDirectedLayout mf rand1 nodes links false =
      forceDirectedLayout mf rand2 nodes links false := rfl

/-- `mapModify` leaves the key sequence untouched. -/
theorem mapModify_map_fst (m : PosMap) (k : String) (f : PosV → PosV) :
    (mapModify m k f).map Prod.fst = m.map Prod.fst := by
  unfold mapModify
  rw [List.map_map]
  apply List.map_congr_left
  intro p _
  by_cases h : p.1 = k
  · simp [h]
  · simp [h]

/-- A key has a binding exactly when it occurs in the key sequence. -/
theorem lookup_isSome_iff (m : PosMap) (k : String) :
    (m.lookup k).isSome = true ↔ k ∈ m.map Prod.fst := by
  induction m with
  | nil => simp
  | cons p t ih =>
    rw [List.lookup_cons]
    by_cases h : k = p.1
    · simp [h]
    · have hbeq : (k == p.1) = false := beq_false_of_ne h
      rw [hbeq]
      simp only [List.map_cons, List.mem_cons]
      rw [ih]
      constructor
      · exact Or.inr
      · rintro (h1 | h1)
        · exact absurd h1 h
        · exact h1

/-- Folding with key-preserving steps preserves the key sequence. -/
theorem foldl_map_fst_eq {α : Type} (f : PosMap → α → PosMap)
    (hf : ∀ m a, (f m a).map Prod.fst = m.map Prod.fst) :
    ∀ (l : List α) (m : PosMap), (l.foldl f m).map Prod.fst = m.map Prod.fst := by
  intro l
  induction l with
  | nil => intro m; rfl
  | cons a t ih =>
    intro m
    rw [List.foldl_cons, ih, hf]

/-- Pair-state version of `foldl_map_fst_eq`. -/
theorem foldl_pair_map_fst_eq {α : Type} (f : PosMap × Nat → α → PosMap × Nat)
    (hf : ∀ ac a, ((f ac a).1).map Prod.fst = ac.1.map Prod.fst) :
    ∀ (l : List α) (ac : PosMap × Nat),
      ((l.foldl f ac).1).map Prod.fst = ac.1.map Prod.fst := by
  intro l
  induction l with
  | nil => intro ac; rfl
  | cons a t ih =>
    intro ac
    rw [List.foldl_cons, ih, hf]

/-- The repulsion pass preserves the key sequence. -/
theorem repulsionPass_map_fst (mf : MathFns) (nodes : List RawNode) (m : PosMap) :
    (repulsionPass mf nodes m).map Prod.fst = m.map Prod.fst := by
  unfold repulsionPass
  apply foldl_map_fst_eq
  intro m0 nodeA
  apply foldl_map_fst_eq
  intro m1 nodeB
  by_cases hid : nodeA.id = nodeB.id
  · rw [if_pos hid]
  · rw [if_neg hid]
    cases hA : m1.lookup nodeA.id with
    | none => rfl
    | some posA =>
      cases hB : m1.lookup nodeB.id with
      | none => rfl
      | some posB => exact mapModify_map_fst _ _ _

/-- The attraction pass preserves the key sequence. -/
theorem attractionPass_map_fst (mf : MathFns) (links : List RawLink) (m : PosMap) :
    (attractionPass mf links m).map Prod.fst = m.map Prod.fst := by
  unfold attractionPass
  apply foldl_map_fst_eq
  intro m0 link
  cases hA : m0.lookup link.source with
  | none => rfl
  | some posA =>
    cases hB : m0.lookup link.target with
    | none => rfl
    | some posB => rw [mapModify_map_fst, mapModify_map_fst]

/-- The integration pass preserves the key sequence. -/
theorem updatePass_map_fst (nodes : List RawNode) (rand : Nat → ℚ) (jitter : Bool)
    (acc : PosMap × Nat) :
    ((updatePass nodes rand jitter acc).1).map Prod.fst = acc.1.map Prod.fst := by
  unfold updatePass
  apply foldl_pair_map_fst_eq
  intro ac node
  by_cases hj : jitter = true
  · rw [hj, if_pos rfl]
    show (mapModify ac.1 node.id (fun p =>
      ⟨p.x + p.vx + (rand ac.2 - 1/2) * (1/20),
       p.y + p.vy + (rand (ac.2 + 1) - 1/2) * (1/20),
       p.vx * (17/20), p.vy * (17/20)⟩)).map Prod.fst = ac.1.map Prod.fst
    exact mapModify_map_fst _ _ _
  · rw [Bool.not_eq_true] at hj
    rw [hj, if_neg (by simp)]
    show (mapModify ac.1 node.id (fun p =>
      ⟨p.x + p.vx, p.y + p.vy, p.vx * (17/20), p.vy * (17/20)⟩)).map Prod.fst =
      ac.1.map Prod.fst
    exact mapModify_map_fst _ _ _

/-- The whole simulation preserves the key sequence of the initial map. -/
theorem simPositions_map_fst (mf : MathFns) (rand : Nat → ℚ) (nodes : List RawNode)
    (links : List RawLink) (randomize : Bool) :
    ((simPositions mf rand nodes links randomize).1).map Prod.fst =
      ((initPositions mf rand nodes randomize).1).map Prod.fst := by
  unfold simPositions
  apply foldl_pair_map_fst_eq
  intro ac iter
  unfold simulateIter
  rw [updatePass_map_fst]
  show (attractionPass mf links (repulsionPass mf nodes ac.1)).map Prod.fst = _
  rw [attractionPass_map_fst, repulsionPass_map_fst]

/-- Normalization preserves the key sequence. -/
theorem normalizePositions_map_fst (m : PosMap) :
    (normalizePositions m).map Prod.fst = m.map Prod.fst := by
  unfold normalizePositions
  rw [List.map_map]
  apply List.map_congr_left
  intro p _
  rfl

/-- `mapSet` key membership: the new key sequence covers the old plus the
inserted key. -/
theorem mapSet_mem_fst (m : PosMap) (k : String) (v : PosV) (id : String) :
    id ∈ (mapSet m k v).map Prod.fst ↔ id ∈ m.map Prod.fst ∨ id = k := by
  unfold mapSet
  by_cases h : (m.lookup k).isSome = true
  · rw [if_pos h]
    rw [List.map_map]
    have hmap : m.map (Prod.fst ∘ fun p => if p.1 = k then (k, v) else p) =
        m.map Prod.fst := by
      apply List.map_congr_left
      intro p _
      by_cases hp : p.1 = k
      · simp [hp]
      · simp [hp]
    rw [hmap]
    constructor
    · exact Or.inl
    · rintro (h1 | rfl)
      · exact h1
      · exact (lookup_isSome_iff m id).mp h
  · rw [if_neg h]
    rw [List.map_append]
    simp [List.mem_append]

/-- `mapSet` preserves key distinctness. -/
theorem mapSet_nodup_fst (m : PosMap) (k : String) (v : PosV)
    (h : (m.map Prod.fst).Nodup) : ((mapSet m k v).map Prod.fst).Nodup := by
  unfold mapSet
  by_cases hs : (m.lookup k).isSome = true
  · rw [if_pos hs]
    rw [List.map_map]
    have hmap : m.map (Prod.fst ∘ fun p => if p.1 = k then (k, v) else p) =
        m.map Prod.fst := by
      apply List.map_congr_left
      intro p _
      by_cases hp : p.1 = k
      · simp [hp]
      · simp [hp]
    rw [hmap]
    exact h
  · rw [if_neg hs]
    rw [List.map_append]
    rw [List.nodup_append]
    refine ⟨h, List.nodup_singleton _, ?_⟩
    intro a ha hb
    rw [List.map_singleton, List.mem_singleton] at hb
    subst hb
    exact hs ((lookup_isSome_iff m a).mpr ha)

/-- Keys after one initialization step: the processed node's id joins the
key sequence; distinctness is preserved. -/
theorem initStep_fst (mf : MathFns) (rand : Nat → ℚ) (n : Nat) (randomize : Bool)
    (acc : PosMap × Nat × Nat) (node : RawNode) :
    (∀ id, id ∈ ((initStep mf rand n randomize acc node).1).map Prod.fst ↔
      id ∈ acc.1.map Prod.fst ∨ id = node.id) ∧
    ((acc.1.map Prod.fst).Nodup →
      (((initStep mf rand n randomize acc node).1).map Prod.fst).Nodup) := by
  unfold initStep
  by_cases hr : randomize = true
  · rw [hr]
    exact ⟨fun id => mapSet_mem_fst _ _ _ _, fun h => mapSet_nodup_fst _ _ _ h⟩
  · rw [Bool.not_eq_true] at hr
    rw [hr]
    exact ⟨fun id => mapSet_mem_fst _ _ _ _, fun h => mapSet_nodup_fst _ _ _ h⟩

/-- Keys after the whole initialization fold. -/
theorem init_fold_fst (mf : MathFns) (rand : Nat → ℚ) (n : Nat) (randomize : Bool) :
    ∀ (nodes : List RawNode) (acc : PosMap × Nat × Nat),
      (∀ id, id ∈ ((nodes.foldl (initStep mf rand n randomize) acc).1).map Prod.fst ↔
        id ∈ acc.1.map Prod.fst ∨ id ∈ nodes.map RawNode.id) ∧
      ((acc.1.map Prod.fst).Nodup →
        (((nodes.foldl (initStep mf rand n randomize) acc).1).map Prod.fst).Nodup) := by
  intro nodes
  induction nodes with
  | nil =>
    intro acc
    refine ⟨fun id => ?_, fun h => h⟩
    simp
  | cons node rest ih =>
    intro acc
    rw [List.foldl_cons]
    obtain ⟨ihm, ihn⟩ := ih (initStep mf rand n randomize acc node)
    obtain ⟨sm, sn⟩ := initStep_fst mf rand n randomize acc node
    constructor
    · intro id
      rw [ihm id, sm id]
      simp only [List.map_cons, List.mem_cons]
      tauto
    · intro h
      exact ihn (sn h)

/-- C10.  `forceDirectedLayout` is total also on malformed link lists:
for every node list and every link list (dangling endpoints included) the
returned map binds each input node id exactly once and binds nothing
else; a link with an endpoint that has no position is skipped by the
attraction pass and never adds an entry. -/
theorem c10_theorem (mf : MathFns) (rand : Nat → ℚ) (nodes : List RawNode)
    (links : List RawLink) (randomize : Bool) :
    (((forceDirectedLayout mf rand nodes links randomize).map Prod.fst).Nodup) ∧
    (∀ id, ((forceDirectedLayout mf rand nodes links randomize).lookup id).isSome
      = true ↔ id ∈ nodes.map RawNode.id) := by
  have hkeys : (forceDirectedLayout mf rand nodes links randomize).map Prod.fst =
      ((nodes.foldl (initStep mf rand nodes.length randomize) ([], 0, 0)).1).map
        Prod.fst := by
    unfold forceDirectedLayout
    rw [normalizePositions_map_fst, simPositions_map_fst]
    rfl
  obtain ⟨hm, hn⟩ := init_fold_fst mf rand nodes.length randomize nodes ([], 0, 0)
  constructor
  · rw [hkeys]
    exact hn List.Pairwise.nil
  · intro id
    rw [lookup_isSome_iff, hkeys, hm id]
    simp

/-- Characterization of the `Math.min` fold on a nonempty list. -/
theorem foldMinQ_spec (x : ℚ) (l : List ℚ) :
    ∃ c, foldMinQ (x :: l) = some c ∧ c ≤ x ∧ (∀ y ∈ l, c ≤ y) ∧ (c = x ∨ c ∈ l) := by
  have key : ∀ (t : List ℚ) (b : ℚ),
      ∃ c, t.foldl (fun a x => match a with
          | none => some x
          | some bb => some (min bb x)) (some b) = some c ∧
        c ≤ b ∧ (∀ y ∈ t, c ≤ y) ∧ (c = b ∨ c ∈ t) := by
    intro t
    induction t with
    | nil =>
      intro b
      refine ⟨b, rfl, le_refl b, fun y hy => ?_, Or.inl rfl⟩
      cases hy
    | cons z t ih =>
      intro b
      obtain ⟨c, heq, hle, hall, hmem⟩ := ih (min b z)
      refine ⟨c, heq, le_trans hle (min_le_left _ _), ?_, ?_⟩
      · intro y hy
        rcases List.mem_cons.mp hy with rfl | hy
        · exact le_trans hle (min_le_right _ _)
        · exact hall y hy
      · rcases hmem with rfl | hc
        · rcases min_choice b z with h | h
          · exact Or.inl h
          · refine Or.inr ?_
            rw [h]
            exact List.mem_cons_self z t
        · exact Or.inr (List.mem_cons_of_mem _ hc)
  exact key l x

/-- Characterization of the `Math.max` fold on a nonempty list. -/
theorem foldMaxQ_spec (x : ℚ) (l : List ℚ) :
    ∃ c, foldMaxQ (x :: l) = some c ∧ x ≤ c ∧ (∀ y ∈ l, y ≤ c) ∧ (c = x ∨ c ∈ l) := by
  have key : ∀ (t : List ℚ) (b : ℚ),
      ∃ c, t.foldl (fun a x => match a with
          | none => some x
          | some bb => some (max bb x)) (some b) = some c ∧
        b ≤ c ∧ (∀ y ∈ t, y ≤ c) ∧ (c = b ∨ c ∈ t) := by
    intro t
    induction t with
    | nil =>
      intro b
      refine ⟨b, rfl, le_refl b, fun y hy => ?_, Or.inl rfl⟩
      cases hy
    | cons z t ih =>
      intro b
      obtain ⟨c, heq, hle, hall, hmem⟩ := ih (max b z)
      refine ⟨c, heq, le_trans (le_max_left _ _) hle, ?_, ?_⟩
      · intro y hy
        rcases List.mem_cons.mp hy with rfl | hy
        · exact le_trans (le_max_right _ _) hle
        · exact hall y hy
      · rcases hmem with rfl | hc
        · rcases max_choice b z with h | h
          · exact Or.inl h
          · refine Or.inr ?_
            rw [h]
            exact List.mem_cons_self z t
        · exact Or.inr (List.mem_cons_of_mem _ hc)
  exact key l x

/-- The `Math.min` fold commutes with an increasing affine map. -/
theorem foldMinQ_map_affine (c s : ℚ) (hs : 0 ≤ s) (l : List ℚ) :
    foldMinQ (l.map (fun x => (x - c) * s)) =
      (foldMinQ l).map (fun x => (x - c) * s) := by
  have key : ∀ (t : List ℚ) (acc : Option ℚ),
      (t.map (fun x => (x - c) * s)).foldl (fun a x => match a with
          | none => some x
          | some bb => some (min bb x)) (acc.map (fun x => (x - c) * s)) =
      (t.foldl (fun a x => match a with
          | none => some x
          | some bb => some (min bb x)) acc).map (fun x => (x - c) * s) := by
    intro t
    induction t with
    | nil => intro acc; rfl
    | cons z t ih =>
      intro acc
      rw [List.map_cons, List.foldl_cons, List.foldl_cons]
      cases acc with
      | none => exact ih (some z)
      | some b =>
        have hmin : min ((b - c) * s) ((z - c) * s) = (min b z - c) * s := by
          rw [← min_mul_of_nonneg _ _ hs, ← min_sub_sub_right]
        show (t.map (fun x => (x - c) * s)).foldl
            (fun a x => match a with
              | none => some x
              | some bb => some (min bb x))
            (some (min ((b - c) * s) ((z - c) * s))) =
          (t.foldl (fun a x => match a with
              | none => some x
              | some bb => some (min bb x)) (some (min b z))).map
            (fun x => (x - c) * s)
        rw [hmin]
        have h2 := ih (some (min b z))
        simpa using h2
  have hkey := key l none
  simpa using hkey

/-- The `Math.max` fold commutes with an increasing affine map. -/
theorem foldMaxQ_map_affine (c s : ℚ) (hs : 0 ≤ s) (l : List ℚ) :
    foldMaxQ (l.map (fun x => (x - c) * s)) =
      (foldMaxQ l).map (fun x => (x - c) * s) := by
  have key : ∀ (t : List ℚ) (acc : Option ℚ),
      (t.map (fun x => (x - c) * s)).foldl (fun a x => match a with
          | none => some x
          | some bb => some (max bb x)) (acc.map (fun x => (x - c) * s)) =
      (t.foldl (fun a x => match a with
          | none => some x
          | some bb => some (max bb x)) acc).map (fun x => (x - c) * s) := by
    intro t
    induction t with
    | nil => intro acc; rfl
    | cons z t ih =>
      intro acc
      rw [List.map_cons, List.foldl_cons, List.foldl_cons]
      cases acc with
      | none => exact ih (some z)
      | some b =>
        have hmax : max ((b - c) * s) ((z - c) * s) = (max b z - c) * s := by
          rw [← max_mul_of_nonneg _ _ hs, ← max_sub_sub_right]
        show (t.map (fun x => (x - c) * s)).foldl
            (fun a x => match a with
              | none => some x
              | some bb => some (max bb x))
            (some (max ((b - c) * s) ((z - c) * s))) =
          (t.foldl (fun a x => match a with
              | none => some x
              | some bb => some (max bb x)) (some (max b z))).map
            (fun x => (x - c) * s)
        rw [hmax]
        have h2 := ih (some (max b z))
        simpa using h2
  have hkey := key l none
  simpa using hkey

/-- What normalization guarantees on a nonempty map whose bounding box
has positive extent: the larger output dimension is exactly 8 and the
output bounding box is centered on the origin. -/
theorem normalize_spec (m : PosMap) (hm : m ≠ [])
    (hrange : bboxLargerDim m ≠ 0) :
    bboxLargerDim (normalizePositions m) = 8 ∧
    bboxMidpoint (normalizePositions m) = (0, 0) := by
  obtain ⟨p0, mrest, rfl⟩ : ∃ p0 mrest, m = p0 :: mrest := by
    cases m with
    | nil => exact absurd rfl hm
    | cons p0 mrest => exact ⟨p0, mrest, rfl⟩
  obtain ⟨a, hmin, hax, hallax, _⟩ := foldMinQ_spec p0.2.x (xsOf mrest)
  obtain ⟨b, hmax, hxb, hallxb, _⟩ := foldMaxQ_spec p0.2.x (xsOf mrest)
  obtain ⟨cy, hminy, hcy, hallcy, _⟩ := foldMinQ_spec p0.2.y (ysOf mrest)
  obtain ⟨d, hmaxy, hyd, hallyd, _⟩ := foldMaxQ_spec p0.2.y (ysOf mrest)
  have hminx' : foldMinQ (xsOf (p0 :: mrest)) = some a := hmin
  have hmaxx' : foldMaxQ (xsOf (p0 :: mrest)) = some b := hmax
  have hminy' : foldMinQ (ysOf (p0 :: mrest)) = some cy := hminy
  have hmaxy' : foldMaxQ (ysOf (p0 :: mrest)) = some d := hmaxy
  have hab : a ≤ b := le_trans hax hxb
  have hcd : cy ≤ d := le_trans hcy hyd
  have hR : bboxLargerDim (p0 :: mrest) = max (b - a) (d - cy) := by
    unfold bboxLargerDim
    rw [hminx', hmaxx', hminy', hmaxy']
    simp only [Option.getD_some]
  rw [hR] at hrange
  have hR0 : (0 : ℚ) ≤ max (b - a) (d - cy) :=
    le_trans (by linarith) (le_max_left (b - a) (d - cy))
  have hRpos : (0 : ℚ) < max (b - a) (d - cy) := lt_of_le_of_ne hR0 (Ne.symm hrange)
  have hs : (0 : ℚ) ≤ 8 / max (b - a) (d - cy) := by positivity
  have hnorm : normalizePositions (p0 :: mrest) = (p0 :: mrest).map
      (fun p => (p.1, { p.2 with
        x := (p.2.x - (a + b) / 2) * (8 / max (b - a) (d - cy)),
        y := (p.2.y - (cy + d) / 2) * (8 / max (b - a) (d - cy)) })) := by
    unfold normalizePositions
    rw [hminx', hmaxx', hminy', hmaxy']
    simp only [Option.getD_some]
    rw [if_neg hrange]
  have hxs2 : xsOf (normalizePositions (p0 :: mrest)) =
      (xsOf (p0 :: mrest)).map
        (fun x => (x - (a + b) / 2) * (8 / max (b - a) (d - cy))) := by
    rw [hnorm]
    unfold xsOf
    rw [List.map_map, List.map_map]
    rfl
  have hys2 : ysOf (normalizePositions (p0 :: mrest)) =
      (ysOf (p0 :: mrest)).map
        (fun y => (y - (cy + d) / 2) * (8 / max (b - a) (d - cy))) := by
    rw [hnorm]
    unfold ysOf
    rw [List.map_map, List.map_map]
    rfl
  have hminx2 : foldMinQ (xsOf (normalizePositions (p0 :: mrest))) =
      some ((a - (a + b) / 2) * (8 / max (b - a) (d - cy))) := by
    rw [hxs2, foldMinQ_map_affine _ _ hs, hminx']
    rfl
  have hmaxx2 : foldMaxQ (xsOf (normalizePositions (p0 :: mrest))) =
      some ((b - (a + b) / 2) * (8 / max (b - a) (d - cy))) := by
    rw [hxs2, foldMaxQ_map_affine _ _ hs, hmaxx']
    rfl
  have hminy2 : foldMinQ (ysOf (normalizePositions (p0 :: mrest))) =
      some ((cy - (cy + d) / 2) * (8 / max (b - a) (d - cy))) := by
    rw [hys2, foldMinQ_map_affine _ _ hs, hminy']
    rfl
  have hmaxy2 : foldMaxQ (ysOf (normalizePositions (p0 :: mrest))) =
      some ((d - (cy + d) / 2) * (8 / max (b - a) (d - cy))) := by
    rw [hys2, foldMaxQ_map_affine _ _ hs, hmaxy']
    rfl
  constructor
  · unfold bboxLargerDim
    rw [hminx2, hmaxx2, hminy2, hmaxy2]
    simp only [Option.getD_some]
    have e1 : (b - (a + b) / 2) * (8 / max (b - a) (d - cy)) -
        (a - (a + b) / 2) * (8 / max (b - a) (d - cy)) =
        (b - a) * (8 / max (b - a) (d - cy)) := by ring
    have e2 : (d - (cy + d) / 2) * (8 / max (b - a) (d - cy)) -
        (cy - (cy + d) / 2) * (8 / max (b - a) (d - cy)) =
        (d - cy) * (8 / max (b - a) (d - cy)) := by ring
    rw [e1, e2, ← max_mul_of_nonneg _ _ hs]
    rw [mul_comm]
    exact div_mul_cancel₀ 8 (ne_of_gt hRpos)
  · unfold bboxMidpoint
    rw [hminx2, hmaxx2, hminy2, hmaxy2]
    simp only [Option.getD_some]
    have e1 : ((a - (a + b) / 2) * (8 / max (b - a) (d - cy)) +
        (b - (a + b) / 2) * (8 / max (b - a) (d - cy))) / 2 = 0 := by ring
    have e2 : ((cy - (cy + d) / 2) * (8 / max (b - a) (d - cy)) +
        (d - (cy + d) / 2) * (8 / max (b - a) (d - cy))) / 2 = 0 := by ring
    rw [e1, e2]

/-- A fold whose step fixes the accumulator on every list element leaves
the accumulator unchanged. -/
theorem foldl_fixed {α β : Type} (f : β → α → β) (acc : β) :
    ∀ (l : List α), (∀ a ∈ l, f acc a = acc) → l.foldl f acc = acc := by
  intro l
  induction l with
  | nil => intro _; rfl
  | cons x xs ih =>
    intro h
    rw [List.foldl_cons, h x (List.mem_cons_self x xs)]
    exact ih (fun a ha => h a (List.mem_cons_of_mem x ha))

/-- Modifying an entry with a function that fixes it is a no-op. -/
theorem mapModify_id (m : PosMap) (k : String) (f : PosV → PosV)
    (h : ∀ p ∈ m, p.1 = k → f p.2 = p.2) : mapModify m k f = m := by
  unfold mapModify
  have hmap : m.map (fun p => if p.1 = k then (p.1, f p.2) else p) =
      m.map (fun p => p) := by
    apply List.map_congr_left
    intro p hp
    by_cases hk : p.1 = k
    · rw [if_pos hk, h p hp hk]
    · rw [if_neg hk]
  rw [hmap, List.map_id']

/-- With a square root that is constantly zero, every repulsion increment
is `dx / 0 * force = 0`, so the repulsion pass changes nothing. -/
theorem repulsionPass_sqrt_zero (mf : MathFns) (hs : ∀ q, mf.sqrt q = 0)
    (nodes : List RawNode) (m0 : PosMap) : repulsionPass mf nodes m0 = m0 := by
  unfold repulsionPass
  apply foldl_fixed
  intro nodeA _
  apply foldl_fixed
  intro nodeB _
  by_cases hab : nodeA.id = nodeB.id
  · rw [if_pos hab]
  · rw [if_neg hab]
    cases hA : m0.lookup nodeA.id with
    | none => rfl
    | some posA =>
      cases hB : m0.lookup nodeB.id with
      | none => rfl
      | some posB =>
        simp only [hs, div_zero, zero_mul, add_zero]
        exact mapModify_id m0 nodeA.id _ (fun p _ _ => rfl)

/-- An empty link list makes the attraction pass a no-op. -/
theorem attractionPass_nil (mf : MathFns) (m0 : PosMap) :
    attractionPass mf [] m0 = m0 := rfl

/-- Without jitter, the integration pass fixes a map all of whose
velocities are zero. -/
theorem updatePass_velZero (nodes : List RawNode) (rand : Nat → ℚ)
    (m : PosMap) (c : Nat) (hv : ∀ p ∈ m, p.2.vx = 0 ∧ p.2.vy = 0) :
    updatePass nodes rand false (m, c) = (m, c) := by
  unfold updatePass
  apply foldl_fixed
  intro node _
  show (mapModify m node.id (fun p =>
    ⟨p.x + p.vx, p.y + p.vy, p.vx * (17/20), p.vy * (17/20)⟩), c) = (m, c)
  have hid : mapModify m node.id (fun p =>
      ⟨p.x + p.vx, p.y + p.vy, p.vx * (17/20), p.vy * (17/20)⟩) = m := by
    apply mapModify_id
    intro p hp _
    obtain ⟨h1, h2⟩ := hv p hp
    rcases p with ⟨k, x, y, vx, vy⟩
    simp only at h1 h2
    subst h1
    subst h2
    show (⟨x + 0, y + 0, 0 * (17/20), 0 * (17/20)⟩ : PosV) = ⟨x, y, 0, 0⟩
    simp only [add_zero, zero_mul]
  rw [hid]

/-- A predicate holding on every value of the map and on the inserted
value holds on every value after `mapSet`. -/
theorem mapSet_pred (P : PosV → Prop) (m : PosMap) (k : String) (v : PosV)
    (hm : ∀ p ∈ m, P p.2) (hv : P v) : ∀ p ∈ mapSet m k v, P p.2 := by
  unfold mapSet
  by_cases hs : (m.lookup k).isSome = true
  · rw [if_pos hs]
    intro p hp
    obtain ⟨q, hq, hpq⟩ := List.mem_map.mp hp
    by_cases hk : q.1 = k
    · rw [if_pos hk] at hpq
      rw [← hpq]
      exact hv
    · rw [if_neg hk] at hpq
      rw [← hpq]
      exact hm q hq
  · rw [if_neg hs]
    intro p hp
    rcases List.mem_append.mp hp with h1 | h1
    · exact hm p h1
    · rw [List.mem_singleton] at h1
      rw [h1]
      exact hv

/-- In non-randomized mode, initialization gives every node zero
velocity. -/
theorem initPositions_velZero (mf : MathFns) (rand : Nat → ℚ)
    (nodes : List RawNode) :
    ∀ p ∈ (initPositions mf rand nodes false).1, p.2.vx = 0 ∧ p.2.vy = 0 := by
  have key : ∀ (ns : List RawNode) (acc : PosMap × Nat × Nat),
      (∀ p ∈ acc.1, p.2.vx = 0 ∧ p.2.vy = 0) →
      ∀ p ∈ (ns.foldl (initStep mf rand nodes.length false) acc).1,
        p.2.vx = 0 ∧ p.2.vy = 0 := by
    intro ns
    induction ns with
    | nil => intro acc h; exact h
    | cons nd rest ih =>
      intro acc h
      rw [List.foldl_cons]
      apply ih
      exact mapSet_pred (fun v => v.vx = 0 ∧ v.vy = 0) acc.1 nd.id _ h ⟨rfl, rfl⟩
  exact key nodes ([], 0, 0) (fun p hp => absurd hp (List.not_mem_nil p))

/-- With a constantly-zero square root, an empty link list and no
randomization, the whole simulation is static: every iteration fixes the
initial position map. -/
theorem simPositions_static (mf : MathFns) (hs : ∀ q, mf.sqrt q = 0)
    (rand : Nat → ℚ) (nodes : List RawNode) :
    simPositions mf rand nodes [] false = initPositions mf rand nodes false := by
  unfold simPositions
  apply foldl_fixed
  intro iter _
  unfold simulateIter
  show updatePass nodes rand
      (false && decide ((iter : ℚ) < ((100 : Nat) : ℚ) / 3))
      (attractionPass mf []
        (repulsionPass mf nodes (initPositions mf rand nodes false).1),
        (initPositions mf rand nodes false).2) =
    initPositions mf rand nodes false
  rw [repulsionPass_sqrt_zero mf hs, attractionPass_nil, Bool.false_and,
    updatePass_velZero nodes rand _ _ (initPositions_velZero mf rand nodes)]

/-- Concrete initialization of three nodes under the probe functions:
abscissas `0`, `14/9`, `56/9` (the squared fractions of a turn times
`7/2`), ordinates and velocities all zero. -/
theorem initPositions_three :
    (initPositions sqrtZeroFns randZero
      [⟨"a", "A"⟩, ⟨"b", "B"⟩, ⟨"c", "C"⟩] false).1 =
    [("a", ⟨0, 0, 0, 0⟩), ("b", ⟨14/9, 0, 0, 0⟩), ("c", ⟨56/9, 0, 0, 0⟩)] := by
  simp [initPositions, initStep, mapSet, sqrtZeroFns, randZero, List.lookup]
  norm_num [mathPI]

/-- Concrete initialization of a single node under the probe functions:
it sits at the origin with zero velocity. -/
theorem initPositions_one :
    (initPositions sqrtZeroFns randZero [⟨"a", "A"⟩] false).1 =
    [("a", ⟨0, 0, 0, 0⟩)] := by
  simp [initPositions, initStep, mapSet, sqrtZeroFns, randZero, List.lookup]

/-- C2.  Counterexample to both halves of the claim.  With the probe math
functions and an all-zero random stream the simulation is static, so the
layout of one node is its (origin) initial position: both bounding-box
ranges are `0`, the `|| 1` fallback replaces the zero range by `1`, and
the output's larger dimension is `0`, not `8`.  And for three nodes (at
abscissas `0`, `14/9`, `56/9`) the output abscissas are `-4`, `-2`, `4`:
the code recenters on the bounding-box MIDPOINT, so the centroid (the
MEAN, as the claim words it) lands at `(-2/3, 0)`, not at the origin. -/
theorem c2_counterexample :
    bboxLargerDim (forceDirectedLayout sqrtZeroFns randZero
      [⟨"a", "A"⟩] [] false) ≠ 8 ∧
    centroidMean (forceDirectedLayout sqrtZeroFns randZero
      [⟨"a", "A"⟩, ⟨"b", "B"⟩, ⟨"c", "C"⟩] [] false) ≠ (0, 0) := by
  have h1 : forceDirectedLayout sqrtZeroFns randZero [⟨"a", "A"⟩] [] false =
      normalizePositions [("a", ⟨0, 0, 0, 0⟩)] := by
    unfold forceDirectedLayout
    rw [simPositions_static sqrtZeroFns (fun q => rfl) randZero, initPositions_one]
  have h3 : forceDirectedLayout sqrtZeroFns randZero
      [⟨"a", "A"⟩, ⟨"b", "B"⟩, ⟨"c", "C"⟩] [] false =
      normalizePositions
        [("a", ⟨0, 0, 0, 0⟩), ("b", ⟨14/9, 0, 0, 0⟩), ("c", ⟨56/9, 0, 0, 0⟩)] := by
    unfold forceDirectedLayout
    rw [simPositions_static sqrtZeroFns (fun q => rfl) randZero, initPositions_three]
  constructor
  · rw [h1]
    simp [normalizePositions, bboxLargerDim, foldMinQ, foldMaxQ, xsOf, ysOf]
  · rw [h3]
    norm_num [normalizePositions, centroidMean, foldMinQ, foldMaxQ, xsOf, ysOf,
      min_def, max_def, Prod.ext_iff]

/-- C2 (amended).  For every nonempty node list and every link list,
PROVIDED the simulated bounding box has nonzero extent (excluded by the
`|| 1` fallback otherwise, e.g. for a single node), the map returned by
`forceDirectedLayout` has a bounding box whose larger dimension is
exactly 8 and whose MIDPOINT — not the mean centroid — is the origin. -/
theorem c2_amended_theorem (mf : MathFns) (rand : Nat → ℚ) (nodes : List RawNode)
    (links : List RawLink) (randomize : Bool) (hn : nodes ≠ [])
    (hrange : bboxLargerDim (simPositions mf rand nodes links randomize).1 ≠ 0) :
    bboxLargerDim (forceDirectedLayout mf rand nodes links randomize) = 8 ∧
    bboxMidpoint (forceDirectedLayout mf rand nodes links randomize) = (0, 0) := by
  have hne : (simPositions mf rand nodes links randomize).1 ≠ [] := by
    intro hnil
    obtain ⟨node, rest, rfl⟩ : ∃ node rest, nodes = node :: rest := by
      cases nodes with
      | nil => exact absurd rfl hn
      | cons node rest => exact ⟨node, rest, rfl⟩
    have hkeys := simPositions_map_fst mf rand (node :: rest) links randomize
    rw [hnil] at hkeys
    have hmem : node.id ∈
        ((initPositions mf rand (node :: rest) randomize).1).map Prod.fst := by
      show node.id ∈ (((node :: rest).foldl
        (initStep mf rand (node :: rest).length randomize) ([], 0, 0)).1).map Prod.fst
      exact ((init_fold_fst mf rand (node :: rest).length randomize
        (node :: rest) ([], 0, 0)).1 node.id).mpr (Or.inr (by simp))
    rw [← hkeys] at hmem
    simp at hmem
  unfold forceDirectedLayout
  exact normalize_spec _ hne hrange

/-- C2 witness: the amended theorem applied to three concrete nodes under
the probe math functions, where the simulated bounding box has extent
`56/9`. -/
theorem c2_witness :
    ([⟨"a", "A"⟩, ⟨"b", "B"⟩, ⟨"c", "C"⟩] : List RawNode) ≠ [] ∧
    bboxLargerDim (simPositions sqrtZeroFns randZero
      [⟨"a", "A"⟩, ⟨"b", "B"⟩, ⟨"c", "C"⟩] [] false).1 ≠ 0 ∧
    (bboxLargerDim (forceDirectedLayout sqrtZeroFns randZero
        [⟨"a", "A"⟩, ⟨"b", "B"⟩, ⟨"c", "C"⟩] [] false) = 8 ∧
      bboxMidpoint (forceDirectedLayout sqrtZeroFns randZero
        [⟨"a", "A"⟩, ⟨"b", "B"⟩, ⟨"c", "C"⟩] [] false) = (0, 0)) := by
  have hrange : bboxLargerDim (simPositions sqrtZeroFns randZero
      [⟨"a", "A"⟩, ⟨"b", "B"⟩, ⟨"c", "C"⟩] [] false).1 ≠ 0 := by
    rw [simPositions_static sqrtZeroFns (fun q => rfl) randZero, initPositions_three]
    norm_num [bboxLargerDim, foldMinQ, foldMaxQ, xsOf, ysOf, min_def, max_def]
  exact ⟨by simp, hrange,
    c2_amended_theorem sqrtZeroFns randZero _ [] false (by simp) hrange⟩
